import Mathlib

set_option maxRecDepth 8192
set_option maxHeartbeats 1000000

/-!
Verification of the cms-embedded-utils string engine (cmsStringUtil.cpp,
cmsStringBase.cpp) against its specification.

Modelling conventions:
* a byte is a `Nat` (values below 256);
* a physical buffer of capacity `maxLen` is a `List Nat` of length `maxLen`;
  reads use `List.getD _ _ 0`, writes use `List.set` (out-of-range writes
  are no-ops, matching the guarded writes of the C code);
* a C string is read from a buffer up to its first NUL byte (`cStr`);
* `size_t` arithmetic is `Nat` arithmetic except for the one wrapping
  subtraction `maxLen - 1`, made explicit as `szSub1`;
* `memcpy`/`memmove` of a whole block become `listCopy` (memmove semantics:
  copy as if through a temporary).
-/

/-- The `size_t` expression `n - 1`: wraps around at zero. -/
def szSub1 (n : Nat) : Nat := if n = 0 then 2 ^ 64 - 1 else n - 1

/-- Bytes of the C string stored in a physical buffer: everything before
the first NUL byte. -/
def cStr (buf : List Nat) : List Nat := buf.takeWhile (fun b => b ≠ 0)

/-- `memcpy(dst + pos, src, src.length)` on a buffer. -/
def listCopy (dst : List Nat) (pos : Nat) (src : List Nat) : List Nat :=
  dst.take pos ++ src ++ dst.drop (pos + src.length)

/-- `cms::string::toLower`: branchless ASCII lower-casing of one byte
(`c | (mask << 5)` where the mask tests `'A' <= c <= 'Z'`). -/
def toLowerC (c : Nat) : Nat :=
  Nat.lor c ((Nat.land ((64 + 512 - c) % 256) ((c + 512 - 91) % 256) >>> 7) <<< 5)

/-- `cms::string::isSpace`: branchless test for `\t`..`\r` and space. -/
def isSpaceC (c : Nat) : Bool :=
  (Nat.lor (Nat.land ((8 + 512 - c) % 256) ((c + 512 - 14) % 256) >>> 7)
    (Nat.land ((31 + 512 - c) % 256) ((c + 512 - 33) % 256) >>> 7)) ≠ 0

/-- `cms::string::isDigit` (single byte): branchless test for `'0'..'9'`. -/
def isDigitC (c : Nat) : Bool :=
  (Nat.land ((47 + 512 - c) % 256) ((c + 512 - 58) % 256) >>> 7) ≠ 0

theorem toLowerC_eq : ∀ c < 256,
    toLowerC c = if 65 ≤ c ∧ c ≤ 90 then c + 32 else c := by decide

theorem isSpaceC_eq : ∀ c < 256,
    isSpaceC c = ((9 ≤ c ∧ c ≤ 13) ∨ c = 32 : Bool) := by decide

theorem isDigitC_eq : ∀ c < 256, isDigitC c = (48 ≤ c ∧ c ≤ 57 : Bool) := by decide

/-! ### Mutation engine: `cms::string::append` -/

theorem szSub1_of_pos (n : Nat) (h : 1 ≤ n) : szSub1 n = n - 1 := by
  unfold szSub1
  rw [if_neg (by omega)]

theorem take_set_of_le (l : List Nat) (i n a : Nat) (h : n ≤ i) :
    (l.set i a).take n = l.take n := by
  induction l generalizing i n with
  | nil => simp
  | cons b t ih =>
    cases i with
    | zero =>
      have : n = 0 := by omega
      simp [this]
    | succ j =>
      cases n with
      | zero => simp
      | succ m => simp [List.set, ih j m (by omega)]

theorem getD_set_self (l : List Nat) (i a : Nat) (h : i < l.length) :
    (l.set i a).getD i 0 = a := by
  induction l generalizing i with
  | nil => simp at h
  | cons b t ih =>
    cases i with
    | zero => simp [List.set]
    | succ j =>
      have := ih j (by simpa using Nat.lt_of_succ_lt_succ h)
      simpa [List.set] using this

theorem listCopy_length (dst : List Nat) (pos : Nat) (src : List Nat)
    (h : pos + src.length ≤ dst.length) :
    (listCopy dst pos src).length = dst.length := by
  simp [listCopy]; omega

theorem take_listCopy (dst : List Nat) (pos : Nat) (src : List Nat)
    (h : pos ≤ dst.length) :
    (listCopy dst pos src).take (pos + src.length) = dst.take pos ++ src := by
  unfold listCopy
  rw [List.take_append_eq_append_take, List.take_append_eq_append_take]
  have h1 : (dst.take pos).length = pos := by simp; omega
  rw [List.take_of_length_le (by omega), h1]
  have h2 : pos + src.length - pos = src.length := by omega
  rw [h2, List.take_of_length_le (le_refl _)]
  simp
  omega

/-- `cms::string::append(buffer, maxLen, curLen&, src, srcLen)`:
copies at most `maxLen - 1 - curLen` bytes of `src` onto the end of the
buffer and re-terminates.  Returns the updated buffer and length. -/
def appendC (buf : List Nat) (maxLen curLen : Nat) (src : List Nat) :
    List Nat × Nat :=
  if src.length = 0 ∨ curLen ≥ szSub1 maxLen then (buf, curLen)
  else
    let available := maxLen - 1 - curLen
    let toCopy := if src.length < available then src.length else available
    if 0 < toCopy then
      ((listCopy buf curLen (src.take toCopy)).set (curLen + toCopy) 0,
        curLen + toCopy)
    else (buf, curLen)

theorem min_eq_if (a b : Nat) : (if a < b then a else b) = min a b := by
  rcases Nat.lt_or_ge a b with h | h
  · rw [if_pos h, Nat.min_eq_left (Nat.le_of_lt h)]
  · rw [if_neg (by omega), Nat.min_eq_right h]

/-- C6: `append` copies exactly `min(srcLen, cap-1-len)` bytes onto the end,
is a no-op when the source is empty or no room is left, keeps the buffer
NUL-terminated, and never reports overflow (the result is always a plain
updated state).  Second conjunct: spec scenario — capacity 8,
`append("hello",5)` then `append("world",5)` leaves content `"hellowo"`
and length 7. -/
theorem append_copies_min_and_terminates :
    (∀ (buf : List Nat) (maxLen curLen : Nat) (src : List Nat),
      1 ≤ maxLen → buf.length = maxLen → curLen ≤ maxLen - 1 →
      buf.getD curLen 0 = 0 →
      (appendC buf maxLen curLen src).2 =
          curLen + min src.length (maxLen - 1 - curLen) ∧
      ((appendC buf maxLen curLen src).1).take (appendC buf maxLen curLen src).2 =
          buf.take curLen ++ src.take (min src.length (maxLen - 1 - curLen)) ∧
      ((appendC buf maxLen curLen src).1).getD (appendC buf maxLen curLen src).2 0 = 0 ∧
      ((appendC buf maxLen curLen src).1).length = maxLen) ∧
    (cStr (appendC (appendC (List.replicate 8 0) 8 0
        [104, 101, 108, 108, 111]).1 8
        (appendC (List.replicate 8 0) 8 0 [104, 101, 108, 108, 111]).2
        [119, 111, 114, 108, 100]).1 =
      [104, 101, 108, 108, 111, 119, 111] ∧
     (appendC (appendC (List.replicate 8 0) 8 0
        [104, 101, 108, 108, 111]).1 8
        (appendC (List.replicate 8 0) 8 0 [104, 101, 108, 108, 111]).2
        [119, 111, 114, 108, 100]).2 = 7) := by
  constructor
  · intro buf maxLen curLen src hcap hbuf hlen hterm
    unfold appendC
    rw [szSub1_of_pos maxLen hcap]
    by_cases hstop : src.length = 0 ∨ curLen ≥ maxLen - 1
    · rw [if_pos hstop]
      have hmin : min src.length (maxLen - 1 - curLen) = 0 := by
        rcases hstop with h | h
        · rw [h, Nat.min_eq_left (Nat.zero_le _)]
        · rw [Nat.min_eq_right (by omega)]; omega
      exact ⟨by simp [hmin], by simp [hmin], hterm, hbuf⟩
    · rw [if_neg hstop]
      push_neg at hstop
      obtain ⟨hsrc, hroom⟩ := hstop
      simp only
      rw [min_eq_if]
      have hpos : 0 < min src.length (maxLen - 1 - curLen) :=
        lt_min_iff.mpr ⟨by omega, by omega⟩
      rw [if_pos hpos]
      set tc := min src.length (maxLen - 1 - curLen) with htc
      have htc1 : tc ≤ src.length := Nat.min_le_left _ _
      have htc2 : curLen + tc ≤ maxLen - 1 := by
        have := Nat.min_le_right src.length (maxLen - 1 - curLen)
        omega
      have hlc : (listCopy buf curLen (src.take tc)).length = maxLen := by
        rw [listCopy_length]
        · exact hbuf
        · rw [List.length_take]; omega
      refine ⟨rfl, ?_, ?_, ?_⟩
      · rw [take_set_of_le _ _ _ _ (le_refl _)]
        have := take_listCopy buf curLen (src.take tc) (by omega)
        rw [List.length_take] at this
        have hmin2 : min tc src.length = tc := Nat.min_eq_left htc1
        rw [hmin2] at this
        exact this
      · exact getD_set_self _ _ _ (by rw [hlc]; omega)
      · rw [List.length_set, hlc]
  · constructor <;> decide

/-- Witness for C6 at the spec scenario input (capacity 8, empty buffer,
source `"hello"`). -/
theorem append_copies_min_and_terminates_witness :
    1 ≤ 8 ∧
    (appendC (List.replicate 8 0) 8 0 [104, 101, 108, 108, 111]).2 =
      0 + min ([104, 101, 108, 108, 111] : List Nat).length (8 - 1 - 0) :=
  ⟨by decide,
    (append_copies_min_and_terminates.1 (List.replicate 8 0) 8 0
      [104, 101, 108, 108, 111] (by decide) (by decide) (by decide)
      (by decide)).1⟩

/-! ### Numeric conversion engine: `appendUIntInternal`, `appendInt`, `toInt` -/

/-- Decimal digit bytes of `n`, most significant digit first (ASCII). -/
def decBytes (n : Nat) : List Nat :=
  if h : n < 10 then [48 + n] else decBytes (n / 10) ++ [48 + n % 10]
decreasing_by exact Nat.div_lt_self (by omega) (by omega)

/-- The two-digit lookup table `"000102...9899"` of `appendUIntInternal`. -/
def digitsTable : List Nat :=
  (("0001020304050607080910111213141516171819" ++
    "2021222324252627282930313233343536373839" ++
    "4041424344454647484950515253545556575859" ++
    "6061626364656667686970717273747576777879" ++
    "8081828384858687888990919293949596979899").toList).map Char.toNat

/-- Digit-count computation of `appendUIntInternal` (branching thresholds,
written for a 32-bit `unsigned long`). -/
def digitsCountC (uval : Nat) : Nat :=
  if uval < 10 then 1
  else if uval < 100 then 2
  else if uval < 1000 then 3
  else if uval < 10000 then 4
  else if uval < 100000 then 5
  else if uval < 1000000 then 6
  else if uval < 10000000 then 7
  else if uval < 100000000 then 8
  else if uval < 1000000000 then 9
  else 10

/-- The backwards digit-writing loop of `appendUIntInternal`: two digits per
step through the lookup table while `v >= 100`, then the final one or two
digits.  Returns the buffer and the final write index. -/
def writeDigitsLoop (buf : List Nat) (writeIdx v : Nat) : List Nat × Nat :=
  if h : v ≥ 100 then
    let i := (v % 100) * 2
    let buf1 := buf.set (writeIdx - 1) (digitsTable.getD (i + 1) 0)
    let buf2 := buf1.set (writeIdx - 2) (digitsTable.getD i 0)
    writeDigitsLoop buf2 (writeIdx - 2) (v / 100)
  else if v ≥ 10 then
    let i := v * 2
    ((buf.set (writeIdx - 1) (digitsTable.getD (i + 1) 0)).set (writeIdx - 2)
        (digitsTable.getD i 0),
      writeIdx - 2)
  else (buf.set (writeIdx - 1) (48 + v), writeIdx - 1)
decreasing_by exact Nat.div_lt_self (by omega) (by omega)

/-- The padding loop of `appendUIntInternal`: fill `[startIdx, writeIdx)`
with the pad character, moving backwards. -/
def padLoop (buf : List Nat) (writeIdx startIdx padChar : Nat) : List Nat :=
  if h : writeIdx > startIdx then
    padLoop (buf.set (writeIdx - 1) padChar) (writeIdx - 1) startIdx padChar
  else buf
decreasing_by omega

/-- `appendUIntInternal(buffer, maxLen, curLen&, uval, width, padChar)`. -/
def appendUIntInternalC (buf : List Nat) (maxLen curLen uval width padChar : Nat) :
    List Nat × Nat :=
  let digitsCount := digitsCountC uval
  let totalLen := if digitsCount > width then digitsCount else width
  if curLen + totalLen ≥ maxLen then (buf, curLen)
  else
    let startIdx := curLen
    let writeIdx := curLen + totalLen
    let buf0 := buf.set writeIdx 0
    let r := writeDigitsLoop buf0 writeIdx uval
    (padLoop r.1 r.2 startIdx padChar, writeIdx)

/-- `cms::string::appendInt(buffer, maxLen, curLen&, val, width, padChar)`;
the C `long` is modelled as a 32-bit signed integer (the branching digit
thresholds of `appendUIntInternal` assume a 32-bit `unsigned long`), the
C expression `-(val + 1) + 1` computing the magnitude becomes `Int.natAbs`. -/
def appendIntC (buf : List Nat) (maxLen curLen : Nat) (val : Int)
    (width padChar : Nat) : List Nat × Nat :=
  if curLen ≥ szSub1 maxLen then (buf, curLen)
  else if val < 0 then
    appendUIntInternalC (buf.set curLen 45) maxLen (curLen + 1) val.natAbs
      (if width > 0 then width - 1 else 0) padChar
  else appendUIntInternalC buf maxLen curLen val.natAbs width padChar

/-! ### UTF-8 boundary resolver: `findUtf8CharStart` and `remove` -/

/-- First loop of `findUtf8CharStart`: advance while the byte is nonzero and
fewer than `charIdx` lead bytes (top two bits not `10`) have been consumed. -/
def fcsLoop (s : List Nat) (p count charIdx : Nat) : Nat :=
  if h : p < s.length ∧ count < charIdx then
    fcsLoop s (p + 1)
      (if Nat.land (s.getD p 0) 192 ≠ 128 then count + 1 else count) charIdx
  else p
termination_by s.length - p
decreasing_by omega

/-- Second loop of `findUtf8CharStart`: skip continuation bytes. -/
def skipContLoop (s : List Nat) (p : Nat) : Nat :=
  if h : p < s.length ∧ Nat.land (s.getD p 0) 192 = 128 then
    skipContLoop s (p + 1)
  else p
termination_by s.length - p
decreasing_by omega

/-- `findUtf8CharStart(str, charIdx)` on the content bytes `s` of a
NUL-terminated string: the byte offset where logical character `charIdx`
starts (clamped to the end of the string). -/
def findUtf8CharStart (s : List Nat) (charIdx : Nat) : Nat :=
  skipContLoop s (fcsLoop s 0 0 charIdx)

/-- `cms::string::remove(buffer, curLen, charIdx, charCount)`: resolve both
boundaries, then `memmove` the tail (including the terminator) left over
the removed span. -/
def removeC (buf : List Nat) (curLen charIdx charCount : Nat) :
    List Nat × Nat :=
  let s := cStr buf
  let startOffset := findUtf8CharStart s charIdx
  if startOffset ≥ s.length then (buf, curLen)
  else
    let endOffset := findUtf8CharStart s (charIdx + charCount)
    let tailLen := curLen - endOffset
    (listCopy buf startOffset ((buf.drop endOffset).take (tailLen + 1)),
      curLen - (endOffset - startOffset))

/-- C1 (code bug): the invariant `buffer[length] == 0` is broken by
`appendInt` with a negative value when the `'-'` sign still fits but the
digits do not: on a zeroed capacity-4 buffer, `append("abc",3)` then
`remove(0,2)` then `appendInt(-10)` yields length 2 with
`buffer[2] = 'c' ≠ 0` (the sign is written and the length advanced, but
`appendUIntInternal` bails out without re-terminating). -/
theorem invariant_broken_by_negative_appendInt :
    ((appendIntC
        (removeC (appendC [0, 0, 0, 0] 4 0 [97, 98, 99]).1
          (appendC [0, 0, 0, 0] 4 0 [97, 98, 99]).2 0 2).1
        4
        (removeC (appendC [0, 0, 0, 0] 4 0 [97, 98, 99]).1
          (appendC [0, 0, 0, 0] 4 0 [97, 98, 99]).2 0 2).2
        (-10) 0 32).2 = 2 ∧
     (appendIntC
        (removeC (appendC [0, 0, 0, 0] 4 0 [97, 98, 99]).1
          (appendC [0, 0, 0, 0] 4 0 [97, 98, 99]).2 0 2).1
        4
        (removeC (appendC [0, 0, 0, 0] 4 0 [97, 98, 99]).1
          (appendC [0, 0, 0, 0] 4 0 [97, 98, 99]).2 0 2).2
        (-10) 0 32).1.getD 2 0 = 99) ∧
    (99 : Nat) ≠ 0 := by
  refine ⟨⟨?_, ?_⟩, by decide⟩ <;>
    simp +decide [appendIntC, appendUIntInternalC, digitsCountC, removeC,
      appendC, listCopy, cStr, findUtf8CharStart, fcsLoop, skipContLoop,
      szSub1]

/-- The digit-accumulation loop of `toInt`. -/
def parseDigitsAcc (s : List Nat) (acc : Nat) : Nat :=
  match s with
  | [] => acc
  | c :: rest =>
    if isDigitC c then parseDigitsAcc rest (acc * 10 + (c - 48)) else acc

/-- The final `static_cast<int>` of `toInt`: truncation of the signed
64-bit accumulator to a 32-bit `int`. -/
def int32wrap (x : Int) : Int := (x + 2 ^ 31) % 2 ^ 32 - 2 ^ 31

/-- `cms::string::toInt(str, len)` on the content bytes `s`: skip leading
whitespace, one optional sign, accumulate digits, truncate to `int`. -/
def toIntC (s : List Nat) : Int :=
  if s.length = 0 then 0
  else
    let s1 := s.dropWhile (fun c => isSpaceC c)
    if s1.length = 0 then 0
    else
      let sign : Int := if s1.headD 0 = 45 then -1 else 1
      let s2 := if s1.headD 0 = 45 ∨ s1.headD 0 = 43 then s1.tail else s1
      int32wrap (Int.ofNat (parseDigitsAcc s2 0) * sign)

theorem decBytes_eq_ite (n : Nat) :
    decBytes n = if n < 10 then [48 + n] else decBytes (n / 10) ++ [48 + n % 10] := by
  rw [decBytes]
  split <;> rfl

theorem decBytes_mem (n : Nat) : ∀ c ∈ decBytes n, 48 ≤ c ∧ c ≤ 57 := by
  induction n using Nat.strong_induction_on with
  | _ n ih =>
    rw [decBytes_eq_ite]
    split_ifs with h10
    · intro c hc
      simp only [List.mem_singleton] at hc
      omega
    · intro c hc
      rw [List.mem_append] at hc
      rcases hc with hc | hc
      · exact ih (n / 10) (Nat.div_lt_self (by omega) (by omega)) c hc
      · simp only [List.mem_singleton] at hc
        have := Nat.mod_lt n (show 0 < 10 by omega)
        omega

theorem digitsCountC_step (n : Nat) (h1 : 10 ≤ n) (h2 : n < 10 ^ 10) :
    digitsCountC n = digitsCountC (n / 10) + 1 := by
  have e : (10 : Nat) ^ 10 = 10000000000 := by norm_num
  rw [e] at h2
  unfold digitsCountC
  have e1 : n / 10 < 10 ↔ n < 100 := by omega
  have e2 : n / 10 < 100 ↔ n < 1000 := by omega
  have e3 : n / 10 < 1000 ↔ n < 10000 := by omega
  have e4 : n / 10 < 10000 ↔ n < 100000 := by omega
  have e5 : n / 10 < 100000 ↔ n < 1000000 := by omega
  have e6 : n / 10 < 1000000 ↔ n < 10000000 := by omega
  have e7 : n / 10 < 10000000 ↔ n < 100000000 := by omega
  have e8 : n / 10 < 100000000 ↔ n < 1000000000 := by omega
  have e9 : n / 10 < 1000000000 ↔ n < 10000000000 := by omega
  rw [if_neg (by omega)]
  simp only [e1, e2, e3, e4, e5, e6, e7, e8, e9]
  split_ifs <;> omega

theorem digitsCountC_le (n : Nat) : digitsCountC n ≤ 10 := by
  unfold digitsCountC
  split_ifs <;> omega

theorem digitsCountC_pos (n : Nat) : 1 ≤ digitsCountC n := by
  unfold digitsCountC
  split_ifs <;> omega

theorem decBytes_length_eq (n : Nat) (h : n < 10 ^ 10) :
    (decBytes n).length = digitsCountC n := by
  induction n using Nat.strong_induction_on with
  | _ n ih =>
    rw [decBytes_eq_ite]
    split_ifs with h10
    · simp [digitsCountC, h10]
    · rw [List.length_append, List.length_singleton,
        ih (n / 10) (Nat.div_lt_self (by omega) (by omega)) (by omega),
        digitsCountC_step n (by omega) h]

theorem digitsTable_getD : ∀ k < 100,
    digitsTable.getD (k * 2) 0 = 48 + k / 10 ∧
    digitsTable.getD (k * 2 + 1) 0 = 48 + k % 10 := by decide

theorem listCopy_nil (dst : List Nat) (pos : Nat) : listCopy dst pos [] = dst := by
  simp [listCopy]

theorem set_eq_listCopy (l : List Nat) (i a : Nat) (h : i < l.length) :
    l.set i a = listCopy l i [a] := by
  induction l generalizing i with
  | nil => simp at h
  | cons b t ih =>
    cases i with
    | zero => simp [listCopy]
    | succ j =>
      have hj : j < t.length := by simpa using Nat.lt_of_succ_lt_succ h
      rw [List.set_cons_succ, ih j hj]
      simp [listCopy]

theorem listCopy_merge (buf : List Nat) (p : Nat) (a b : List Nat)
    (h : p + a.length + b.length ≤ buf.length) :
    listCopy (listCopy buf (p + a.length) b) p a = listCopy buf p (a ++ b) := by
  unfold listCopy
  have h1 : (buf.take (p + a.length)).length = p + a.length := by
    rw [List.length_take]; omega
  have e1 : (buf.take (p + a.length) ++ b ++
      buf.drop (p + a.length + b.length)).take p = buf.take p := by
    rw [List.append_assoc, List.take_append_eq_append_take, h1, List.take_take,
      Nat.min_eq_left (by omega)]
    have hz : p - (p + a.length) = 0 := by omega
    rw [hz, List.take_zero, List.append_nil]
  have e2 : (buf.take (p + a.length) ++ b ++
      buf.drop (p + a.length + b.length)).drop (p + a.length) =
      b ++ buf.drop (p + a.length + b.length) := by
    rw [List.append_assoc, List.drop_append_eq_append_drop, h1,
      List.drop_eq_nil_of_le (le_of_eq h1)]
    simp
  rw [e1, e2]
  simp [List.append_assoc, Nat.add_assoc]

theorem decBytes_split100 (v : Nat) (h : 100 ≤ v) :
    decBytes v = decBytes (v / 100) ++ [48 + (v / 10) % 10, 48 + v % 10] := by
  rw [decBytes_eq_ite v, if_neg (by omega), decBytes_eq_ite (v / 10),
    if_neg (by omega), Nat.div_div_eq_div_mul, List.append_assoc]
  norm_num

theorem decBytes_two (v : Nat) (h1 : 10 ≤ v) (h2 : v < 100) :
    decBytes v = [48 + v / 10, 48 + v % 10] := by
  rw [decBytes_eq_ite v, if_neg (by omega), decBytes_eq_ite (v / 10),
    if_pos (by omega)]
  rfl

theorem set_two_eq_listCopy (buf : List Nat) (wi b0 b1 : Nat)
    (h2 : 2 ≤ wi) (hbuf : wi ≤ buf.length) :
    (buf.set (wi - 1) b1).set (wi - 2) b0 = listCopy buf (wi - 2) [b0, b1] := by
  have hl1 : (listCopy buf (wi - 1) [b1]).length = buf.length :=
    listCopy_length _ _ _ (by simp; omega)
  rw [set_eq_listCopy buf (wi - 1) b1 (by omega),
    set_eq_listCopy _ (wi - 2) b0 (by rw [hl1]; omega)]
  have hm := listCopy_merge buf (wi - 2) [b0] [b1] (by simp; omega)
  simp only [List.length_singleton] at hm
  have e : wi - 2 + 1 = wi - 1 := by omega
  rw [e] at hm
  rw [hm]
  rfl

theorem writeDigitsLoop_spec (v : Nat) : v < 10 ^ 10 →
    ∀ (buf : List Nat) (wi : Nat),
      (decBytes v).length ≤ wi → wi ≤ buf.length →
      writeDigitsLoop buf wi v =
        (listCopy buf (wi - (decBytes v).length) (decBytes v),
          wi - (decBytes v).length) := by
  induction v using Nat.strong_induction_on with
  | _ v ih =>
    intro hv buf wi hwi hbuf
    rw [writeDigitsLoop]
    by_cases h100 : v ≥ 100
    · rw [dif_pos h100]
      dsimp only
      have htab := digitsTable_getD (v % 100) (by omega)
      have hsplit := decBytes_split100 v h100
      have hlen2 : (decBytes v).length = (decBytes (v / 100)).length + 2 := by
        rw [hsplit]; simp
      rw [set_two_eq_listCopy buf wi (digitsTable.getD (v % 100 * 2) 0)
        (digitsTable.getD (v % 100 * 2 + 1) 0) (by omega) hbuf]
      have hlc : (listCopy buf (wi - 2)
          [digitsTable.getD (v % 100 * 2) 0,
            digitsTable.getD (v % 100 * 2 + 1) 0]).length = buf.length :=
        listCopy_length _ _ _ (by simp; omega)
      rw [ih (v / 100) (Nat.div_lt_self (by omega) (by omega)) (by omega) _
        (wi - 2) (by omega) (by rw [hlc]; omega)]
      have hm2 := listCopy_merge buf (wi - 2 - (decBytes (v / 100)).length)
        (decBytes (v / 100))
        [digitsTable.getD (v % 100 * 2) 0, digitsTable.getD (v % 100 * 2 + 1) 0]
        (by simp; omega)
      have e2 : wi - 2 - (decBytes (v / 100)).length + (decBytes (v / 100)).length
          = wi - 2 := by omega
      rw [e2] at hm2
      rw [hm2]
      have e3 : wi - 2 - (decBytes (v / 100)).length = wi - (decBytes v).length := by
        omega
      have e4 : decBytes (v / 100) ++
          [digitsTable.getD (v % 100 * 2) 0, digitsTable.getD (v % 100 * 2 + 1) 0]
          = decBytes v := by
        rw [htab.1, htab.2, hsplit]
        have d1 : v % 100 / 10 = v / 10 % 10 := by omega
        have d2 : v % 100 % 10 = v % 10 := by omega
        rw [d1, d2]
      rw [e3, e4]
    · rw [dif_neg h100]
      by_cases h10 : v ≥ 10
      · rw [if_pos h10]
        dsimp only
        have htab := digitsTable_getD v (by omega)
        have hd2 := decBytes_two v h10 (by omega)
        have hlen : (decBytes v).length = 2 := by rw [hd2]; rfl
        rw [hlen] at hwi ⊢
        rw [set_two_eq_listCopy buf wi (digitsTable.getD (v * 2) 0)
          (digitsTable.getD (v * 2 + 1) 0) (by omega) hbuf]
        rw [htab.1, htab.2, hd2]
      · rw [if_neg h10]
        have hd1 : decBytes v = [48 + v] := by
          rw [decBytes_eq_ite, if_pos (by omega)]
        have hlen : (decBytes v).length = 1 := by rw [hd1]; rfl
        rw [hlen] at hwi ⊢
        rw [set_eq_listCopy buf (wi - 1) _ (by omega), hd1]

theorem padLoop_spec (k : Nat) : ∀ (buf : List Nat) (si pad : Nat),
    si + k ≤ buf.length →
    padLoop buf (si + k) si pad = listCopy buf si (List.replicate k pad) := by
  induction k with
  | zero =>
    intro buf si pad h
    rw [padLoop]
    rw [dif_neg (by omega)]
    simp [listCopy]
  | succ m ih =>
    intro buf si pad h
    rw [padLoop]
    rw [dif_pos (by omega)]
    have e1 : si + (m + 1) - 1 = si + m := by omega
    rw [e1]
    rw [ih (buf.set (si + m) pad) si pad (by rw [List.length_set]; omega)]
    rw [set_eq_listCopy buf (si + m) pad (by omega)]
    have hm := listCopy_merge buf si (List.replicate m pad) [pad] (by simp; omega)
    rw [List.length_replicate] at hm
    rw [hm, ← List.replicate_succ']

theorem listCopy_merge2 (buf : List Nat) (p : Nat) (a b : List Nat)
    (h : p + a.length + b.length ≤ buf.length) :
    listCopy (listCopy buf p a) (p + a.length) b = listCopy buf p (a ++ b) := by
  unfold listCopy
  have h1 : (buf.take p ++ a).length = p + a.length := by
    rw [List.length_append, List.length_take]; omega
  have e1 : (buf.take p ++ a ++ buf.drop (p + a.length)).take (p + a.length)
      = buf.take p ++ a := by
    rw [List.take_append_eq_append_take, h1, Nat.sub_self, List.take_zero,
      List.append_nil, List.take_of_length_le (le_of_eq h1)]
  have e2 : (buf.take p ++ a ++ buf.drop (p + a.length)).drop
      (p + a.length + b.length) = buf.drop (p + a.length + b.length) := by
    rw [List.drop_append_eq_append_drop, h1,
      List.drop_eq_nil_of_le (by omega), List.nil_append, List.drop_drop]
    congr 1
    omega
  rw [e1, e2]
  simp [List.append_assoc, Nat.add_assoc]

theorem appendUIntInternal_spec (buf : List Nat)
    (maxLen curLen uval width padChar : Nat)
    (hv : uval < 10 ^ 10) (hbuf : buf.length = maxLen)
    (hroom : curLen + max (digitsCountC uval) width < maxLen) :
    appendUIntInternalC buf maxLen curLen uval width padChar =
      (listCopy buf curLen
        (List.replicate (max (digitsCountC uval) width - digitsCountC uval)
            padChar ++ decBytes uval ++ [0]),
        curLen + max (digitsCountC uval) width) := by
  unfold appendUIntInternalC
  dsimp only
  have hmax : (if digitsCountC uval > width then digitsCountC uval else width)
      = max (digitsCountC uval) width := by
    split_ifs <;> omega
  rw [hmax, if_neg (by omega)]
  set tl := max (digitsCountC uval) width with htl
  have hdl : (decBytes uval).length = digitsCountC uval := decBytes_length_eq uval hv
  have hd_le : digitsCountC uval ≤ tl := Nat.le_max_left _ _
  have hwi_lt : curLen + tl < maxLen := hroom
  -- the initial NUL write
  rw [set_eq_listCopy buf (curLen + tl) 0 (by omega)]
  -- the digit-writing loop
  have hl0 : (listCopy buf (curLen + tl) [0]).length = maxLen := by
    rw [listCopy_length _ _ _ (by simp; omega)]; exact hbuf
  rw [writeDigitsLoop_spec uval hv _ (curLen + tl) (by omega) (by omega)]
  dsimp only
  -- merge the digits with the NUL
  have hm1 := listCopy_merge buf (curLen + tl - (decBytes uval).length)
    (decBytes uval) [0] (by simp; omega)
  have e1 : curLen + tl - (decBytes uval).length + (decBytes uval).length
      = curLen + tl := by omega
  rw [e1] at hm1
  rw [hm1]
  -- the padding loop
  have hl1 : (listCopy buf (curLen + tl - (decBytes uval).length)
      (decBytes uval ++ [0])).length = maxLen := by
    rw [listCopy_length _ _ _ (by simp; omega)]; exact hbuf
  have e2 : curLen + tl - (decBytes uval).length
      = curLen + (tl - digitsCountC uval) := by omega
  rw [e2]
  have hl1b : (listCopy buf (curLen + (tl - digitsCountC uval))
      (decBytes uval ++ [0])).length = maxLen := by
    rw [listCopy_length _ _ _ (by simp; omega)]; exact hbuf
  rw [padLoop_spec (tl - digitsCountC uval) _ curLen padChar (by rw [hl1b]; omega)]
  -- merge the padding with digits and NUL
  have hm2 := listCopy_merge buf curLen
    (List.replicate (tl - digitsCountC uval) padChar) (decBytes uval ++ [0])
    (by simp; omega)
  rw [List.length_replicate] at hm2
  rw [← e2, e2] at hm2
  rw [hm2, List.append_assoc]

theorem appendIntC_spec (buf : List Nat) (maxLen : Nat) (val : Int)
    (hv1 : -(2 ^ 31) ≤ val) (hv2 : val < 2 ^ 31)
    (hbuf : buf.length = maxLen) (hcap : 12 ≤ maxLen) :
    appendIntC buf maxLen 0 val 0 32 =
      (listCopy buf 0
        ((if val < 0 then [45] else []) ++ decBytes val.natAbs ++ [0]),
        (if val < 0 then 1 else 0) + digitsCountC val.natAbs) := by
  have hva : val.natAbs < 10 ^ 10 := by
    have : val.natAbs ≤ 2 ^ 31 := by omega
    omega
  have hd10 := digitsCountC_le val.natAbs
  have hd1 := digitsCountC_pos val.natAbs
  have hdl := decBytes_length_eq val.natAbs hva
  unfold appendIntC
  rw [szSub1_of_pos maxLen (by omega), if_neg (by omega)]
  by_cases hneg : val < 0
  · rw [if_pos hneg]
    rw [set_eq_listCopy buf 0 45 (by omega)]
    have hl0 : (listCopy buf 0 [45]).length = maxLen := by
      rw [listCopy_length _ _ _ (by simp; omega)]; exact hbuf
    have hw0 : (if (0 : Nat) > 0 then 0 - 1 else 0) = 0 := by norm_num
    rw [hw0]
    rw [appendUIntInternal_spec _ maxLen 1 val.natAbs 0 32 hva hl0
      (by rw [Nat.max_eq_left (by omega)]; omega)]
    rw [Nat.max_eq_left (by omega)]
    have hm := listCopy_merge2 buf 0 [45] (decBytes val.natAbs ++ [0])
      (by simp; omega)
    simp only [List.length_singleton, Nat.zero_add] at hm
    rw [Nat.sub_self, List.replicate_zero, List.nil_append, hm, if_pos hneg]
    rw [List.append_assoc, if_pos hneg]
  · rw [if_neg hneg]
    rw [appendUIntInternal_spec buf maxLen 0 val.natAbs 0 32 hva hbuf
      (by rw [Nat.max_eq_left (by omega)]; omega)]
    rw [Nat.max_eq_left (by omega)]
    rw [Nat.sub_self, List.replicate_zero, List.nil_append, if_neg hneg,
      List.nil_append, if_neg hneg, Nat.zero_add]

theorem isDigitC_of_digit (c : Nat) (h1 : 48 ≤ c) (h2 : c ≤ 57) :
    isDigitC c = true := by
  rw [isDigitC_eq c (by omega)]
  exact decide_eq_true (by omega)

theorem isSpaceC_false_of_sign_or_digit (c : Nat) (h1 : 43 ≤ c) (h2 : c ≤ 57) :
    isSpaceC c = false := by
  rw [isSpaceC_eq c (by omega)]
  exact decide_eq_false (by omega)

theorem parseDigitsAcc_append (a : List Nat)
    (ha : ∀ c ∈ a, 48 ≤ c ∧ c ≤ 57) (b : List Nat) : ∀ acc : Nat,
    parseDigitsAcc (a ++ b) acc = parseDigitsAcc b (parseDigitsAcc a acc) := by
  induction a with
  | nil => intro acc; simp [parseDigitsAcc]
  | cons c t ih =>
    intro acc
    have hc := ha c (by simp)
    simp only [List.cons_append, parseDigitsAcc,
      isDigitC_of_digit c hc.1 hc.2, if_true]
    exact ih (fun x hx => ha x (by simp [hx])) _

theorem parseDigitsAcc_decBytes (n : Nat) : ∀ acc : Nat,
    parseDigitsAcc (decBytes n) acc = acc * 10 ^ (decBytes n).length + n := by
  induction n using Nat.strong_induction_on with
  | _ n ih =>
    intro acc
    by_cases h10 : n < 10
    · rw [decBytes_eq_ite, if_pos h10]
      simp only [parseDigitsAcc, isDigitC_of_digit (48 + n) (by omega) (by omega),
        if_true]
      rw [List.length_singleton, pow_one]
      omega
    · rw [decBytes_eq_ite, if_neg h10]
      rw [parseDigitsAcc_append (decBytes (n / 10))
        (fun c hc => decBytes_mem (n / 10) c hc) _ acc]
      rw [ih (n / 10) (Nat.div_lt_self (by omega) (by omega)) acc]
      simp only [parseDigitsAcc, isDigitC_of_digit (48 + n % 10) (by omega)
        (by have := Nat.mod_lt n (show 0 < 10 by omega); omega), if_true]
      rw [List.length_append, List.length_singleton]
      have hsimp : 48 + n % 10 - 48 = n % 10 := by omega
      rw [hsimp]
      calc (acc * 10 ^ (decBytes (n / 10)).length + n / 10) * 10 + n % 10
          = acc * (10 ^ (decBytes (n / 10)).length * 10) +
              (n / 10 * 10 + n % 10) := by ring
        _ = acc * 10 ^ ((decBytes (n / 10)).length + 1) + n := by
            rw [pow_succ]
            congr 1
            omega

theorem int32wrap_id (x : Int) (h1 : -(2 ^ 31) ≤ x) (h2 : x < 2 ^ 31) :
    int32wrap x = x := by
  unfold int32wrap
  rw [Int.emod_eq_of_lt (by omega) (by omega)]
  ring

theorem decBytes_ne_nil (n : Nat) : decBytes n ≠ [] := by
  rw [decBytes_eq_ite]
  split_ifs <;> simp

theorem toIntC_decBytes (n : Nat) (hn : n < 2 ^ 31) :
    toIntC (decBytes n) = n := by
  obtain ⟨d, D, hD⟩ := List.exists_cons_of_ne_nil (decBytes_ne_nil n)
  have hd : 48 ≤ d ∧ d ≤ 57 := decBytes_mem n d (by rw [hD]; simp)
  unfold toIntC
  rw [hD]
  dsimp only
  rw [List.dropWhile_cons, isSpaceC_false_of_sign_or_digit d (by omega) hd.2]
  have c1 : ((d :: D).length = 0) = False := eq_false (by simp)
  have c2 : (d = 45) = False := eq_false (by omega)
  have c3 : (d = 43) = False := eq_false (by omega)
  simp only [Bool.false_eq_true, if_false, List.headD_cons, c1, c2, c3,
    or_self]
  rw [← hD, parseDigitsAcc_decBytes n 0]
  rw [Nat.zero_mul, Nat.zero_add, Int.mul_one]
  exact int32wrap_id n (by omega) (by omega)

theorem toIntC_neg_decBytes (n : Nat) (hn : n ≤ 2 ^ 31) :
    toIntC (45 :: decBytes n) = -(n : Int) := by
  unfold toIntC
  dsimp only
  rw [List.dropWhile_cons]
  rw [show isSpaceC 45 = false from by decide]
  have c1 : ((45 :: decBytes n).length = 0) = False := eq_false (by simp)
  have c2 : ((45 : Nat) = 45) = True := eq_true rfl
  simp only [Bool.false_eq_true, if_false, List.headD_cons, c1, c2, true_or,
    if_true]
  rw [List.tail_cons, parseDigitsAcc_decBytes n 0]
  rw [Nat.zero_mul, Nat.zero_add]
  have e : Int.ofNat n * -1 = -(n : Int) := by
    rw [Int.ofNat_eq_natCast]; ring
  rw [e]
  exact int32wrap_id _ (by omega) (by omega)

theorem cStr_append_zero (s t : List Nat) (hs : ∀ c ∈ s, c ≠ 0) :
    cStr (s ++ 0 :: t) = s := by
  induction s with
  | nil => simp [cStr, List.takeWhile_cons]
  | cons c r ih =>
    have hc : c ≠ 0 := hs c (by simp)
    simp only [List.cons_append, cStr, List.takeWhile_cons]
    rw [decide_eq_true hc]
    simp only [if_true]
    have := ih (fun x hx => hs x (by simp [hx]))
    unfold cStr at this
    rw [this]

/-- C2: round trip `toInt(appendInt(v)) == v` — formatting any representable
(32-bit) long into a sufficiently large empty buffer and parsing the
resulting NUL-terminated string with `toInt` yields the value back. -/
theorem toInt_appendInt_roundtrip :
    ∀ (v : Int) (buf : List Nat) (maxLen : Nat),
      -(2 ^ 31) ≤ v → v < 2 ^ 31 → buf.length = maxLen → 12 ≤ maxLen →
      toIntC (cStr (appendIntC buf maxLen 0 v 0 32).1) = v := by
  intro v buf maxLen h1 h2 hbuf hcap
  rw [appendIntC_spec buf maxLen v h1 h2 hbuf hcap]
  dsimp only
  have hnz : ∀ c ∈ (if v < 0 then [45] else ([] : List Nat)) ++ decBytes v.natAbs,
      c ≠ 0 := by
    intro c hc
    rw [List.mem_append] at hc
    rcases hc with hc | hc
    · split_ifs at hc with hv
      · simp only [List.mem_singleton] at hc; omega
      · simp at hc
    · have := decBytes_mem v.natAbs c hc; omega
  have hshape : listCopy buf 0
      ((if v < 0 then [45] else []) ++ decBytes v.natAbs ++ [0]) =
      ((if v < 0 then [45] else []) ++ decBytes v.natAbs) ++ 0 ::
        buf.drop (((if v < 0 then [45] else []) ++ decBytes v.natAbs ++ [0]).length) := by
    unfold listCopy
    rw [List.take_zero, List.nil_append, Nat.zero_add]
    simp [List.append_assoc]
  rw [hshape, cStr_append_zero _ _ hnz]
  by_cases hv : v < 0
  · rw [if_pos hv, List.singleton_append,
      toIntC_neg_decBytes v.natAbs (by omega)]
    omega
  · rw [if_neg hv, List.nil_append, toIntC_decBytes v.natAbs (by omega)]
    omega

/-- Witness for C2 at the most negative representable long. -/
theorem toInt_appendInt_roundtrip_witness :
    -(2 ^ 31) ≤ (-2147483648 : Int) ∧
    toIntC (cStr (appendIntC (List.replicate 12 0) 12 0 (-2147483648) 0 32).1) =
      (-2147483648 : Int) :=
  ⟨by decide, toInt_appendInt_roundtrip (-2147483648) (List.replicate 12 0) 12
    (by decide) (by decide) (by simp) (by decide)⟩

/-! ### Buffer-bound facade: `StringBase` -/

structure StringBaseSt where
  buf : List Nat
  capacity : Nat
  len : Nat

/-- `StringBase::StringBase(char* b, size_t c)`: both the supplied capacity
and the measured initial length pass through `static_cast<uint16_t>` before
being stored. -/
def StringBase.mkC (b : List Nat) (c : Nat) : StringBaseSt :=
  { buf := b, capacity := c % 65536, len := (cStr b).length % 65536 }

/-- `StringBase::append(s, len)`: the facade's inline copy, bounded by the
stored capacity. -/
def StringBase.appendM (st : StringBaseSt) (s : List Nat) : StringBaseSt :=
  if s.length = 0 ∨ st.capacity ≤ 1 then st
  else
    let available := if st.len < st.capacity - 1 then st.capacity - 1 - st.len
      else 0
    let toCopy := if s.length < available then s.length else available
    if 0 < toCopy then
      { st with
          buf := (listCopy st.buf st.len (s.take toCopy)).set (st.len + toCopy) 0,
          len := st.len + toCopy }
    else st

theorem appendM_len_le (st : StringBaseSt) (s : List Nat) :
    (StringBase.appendM st s).len ≤ max st.len (st.capacity - 1) := by
  unfold StringBase.appendM
  dsimp only
  split_ifs <;> (try dsimp only) <;> omega

/-- C10: the `StringBase` constructor narrows the supplied capacity (and the
measured initial length) through `uint16_t`, so a backing array of size
`c > 65535` yields `capacity() = c % 65536`, and the facade's truncation
decisions (here: its `append`) are bounded by that narrowed capacity, not
by the real array size. -/
theorem stringBase_capacity_narrowed :
    ∀ (b : List Nat) (c : Nat), b.length = c → 65535 < c →
      (StringBase.mkC b c).capacity = c % 65536 ∧
      (StringBase.mkC b c).capacity ≠ c ∧
      (∀ s : List Nat,
        (StringBase.appendM (StringBase.mkC b c) s).len ≤
          max (StringBase.mkC b c).len (c % 65536 - 1)) := by
  intro b c hb hc
  refine ⟨rfl, ?_, ?_⟩
  · have h1 : c % 65536 < 65536 := Nat.mod_lt _ (by omega)
    show c % 65536 ≠ c
    omega
  · intro s
    have := appendM_len_le (StringBase.mkC b c) s
    exact this

/-- Witness for C10 at a backing array of 65544 bytes: the stored capacity
is 8. -/
theorem stringBase_capacity_narrowed_witness :
    (65535 : Nat) < 65544 ∧
    (StringBase.mkC (List.replicate 65544 0) 65544).capacity = 65544 % 65536 :=
  ⟨by decide,
    (stringBase_capacity_narrowed (List.replicate 65544 0) 65544
      (List.length_replicate 65544 0) (by decide)).1⟩

/-! ### Tokenizer: destructive `split` -/

theorem lt_length_of_getD_ne (l : List Nat) (p : Nat) (h : l.getD p 0 ≠ 0) :
    p < l.length := by
  by_contra hge
  exact h (List.getD_eq_default l 0 (by omega))

/-- Scan loop of the destructive `cms::string::split`: on a delimiter byte,
if the token array still has room, overwrite the byte with NUL in place and
record the next offset; once the array is full, stop scanning.  Returns the
modified buffer and the recorded token start offsets. -/
def splitLoop (buf : List Nat) (delim maxTokens p count : Nat)
    (toks : List Nat) : List Nat × List Nat :=
  if hp : buf.getD p 0 = 0 then (buf, toks)
  else if buf.getD p 0 = delim then
    if count < maxTokens then
      splitLoop (buf.set p 0) delim maxTokens (p + 1) (count + 1)
        (toks ++ [p + 1])
    else (buf, toks)
  else splitLoop buf delim maxTokens (p + 1) count toks
termination_by buf.length - p
decreasing_by
  · have := lt_length_of_getD_ne buf p hp
    rw [List.length_set]
    omega
  · have := lt_length_of_getD_ne buf p hp
    omega

/-- `cms::string::split(str, delimiter, tokens, maxTokens)` (destructive):
the first token always starts at offset 0. -/
def splitDestrC (buf : List Nat) (delim maxTokens : Nat) :
    List Nat × List Nat :=
  if maxTokens = 0 then (buf, [])
  else splitLoop buf delim maxTokens 0 1 [0]

/-- Bytes of a recorded token: from its start offset up to the next NUL of
the (modified) buffer. -/
def tokenBytes (buf : List Nat) (off : Nat) : List Nat := cStr (buf.drop off)

/-- C4 counterexample: destructive `split(" a:b:c ", ':', tokens, 2)` does
return 2 tokens, but their contents are `" a"` and `"b:c "` — the spec's
claimed contents `"a"` and `"b:c"` are wrong (`split` never trims). -/
theorem split_scenario_claim_false :
    (splitDestrC [32, 97, 58, 98, 58, 99, 32, 0] 58 2).2.length = 2 ∧
    ¬ ((splitDestrC [32, 97, 58, 98, 58, 99, 32, 0] 58 2).2.map
        (fun off =>
          tokenBytes (splitDestrC [32, 97, 58, 98, 58, 99, 32, 0] 58 2).1 off)
      = [[97], [98, 58, 99]]) := by
  constructor <;>
    simp +decide [splitDestrC, splitLoop, tokenBytes, cStr]

/-- C4 (amended): destructive split overwrites each cut delimiter with a
terminator in place and records the interior start offsets; once the token
array is full the final slot absorbs all remaining un-split content.  On
`" a:b:c "` with `':'` and maxTokens 2: two tokens starting at offsets 0
and 3, contents `" a"` and `"b:c "`, and only the first `':'` (offset 2)
was overwritten — the rest of the buffer, second `':'` included, is
untouched and absorbed by the last token. -/
theorem split_destructive_in_place :
    (splitDestrC [32, 97, 58, 98, 58, 99, 32, 0] 58 2).1 =
      [32, 97, 0, 98, 58, 99, 32, 0] ∧
    (splitDestrC [32, 97, 58, 98, 58, 99, 32, 0] 58 2).2 = [0, 3] ∧
    ((splitDestrC [32, 97, 58, 98, 58, 99, 32, 0] 58 2).2.map
        (fun off =>
          tokenBytes (splitDestrC [32, 97, 58, 98, 58, 99, 32, 0] 58 2).1 off)
      = [[32, 97], [98, 58, 99, 32]]) := by
  refine ⟨?_, ?_, ?_⟩ <;>
    simp +decide [splitDestrC, splitLoop, tokenBytes, cStr]

/-! ### Search & comparison engine -/

/-- Byte-exact occurrence test at offset `k` (semantics of libc `strstr`). -/
def occursAt (hay pat : List Nat) (k : Nat) : Bool :=
  decide ((hay.drop k).take pat.length = pat)

/-- libc `strstr` on content bytes: offset of the first exact occurrence. -/
def strstrC (hay pat : List Nat) : Option Nat :=
  if pat.length = 0 then some 0
  else (List.range (hay.length + 1)).find? (fun k => occursAt hay pat k)

/-- The table-filling loop of `computeLPS` (partial-match table for the
case-folded KMP).  `fuel` bounds the iteration count; the real loop runs at
most `2 m` steps. -/
def computeLPSLoop (pat : List Nat) (m fuel : Nat) (lps : List Nat)
    (len i : Nat) : List Nat :=
  match fuel with
  | 0 => lps
  | fuel + 1 =>
    if i < m then
      if toLowerC (pat.getD i 0) = toLowerC (pat.getD len 0) then
        computeLPSLoop pat m fuel (lps.set i (len + 1)) (len + 1) (i + 1)
      else if len ≠ 0 then
        computeLPSLoop pat m fuel lps (lps.getD (len - 1) 0) i
      else
        computeLPSLoop pat m fuel (lps.set i 0) len (i + 1)
    else lps

/-- `computeLPS(pat, m, lps)`: `lps[0] = 0`, then the loop from `i = 1`. -/
def computeLPSC (pat : List Nat) : List Nat :=
  computeLPSLoop pat pat.length (2 * pat.length + 1)
    ((List.replicate pat.length 0).set 0 0) 0 1

/-- The KMP search loop of `cms::string::strcasestr` (patterns of at most
64 bytes): case-folded comparison, partial-match table on mismatch. -/
def kmpLoop (hay pat lps : List Nat) (m fuel i j : Nat) : Option Nat :=
  match fuel with
  | 0 => none
  | fuel + 1 =>
    if hay.getD i 0 ≠ 0 then
      let i1 := if toLowerC (hay.getD i 0) = toLowerC (pat.getD j 0) then i + 1
        else i
      let j1 := if toLowerC (hay.getD i 0) = toLowerC (pat.getD j 0) then j + 1
        else j
      if j1 = m then some (i1 - m)
      else if hay.getD i1 0 ≠ 0 ∧
          toLowerC (hay.getD i1 0) ≠ toLowerC (pat.getD j1 0) then
        if j1 ≠ 0 then kmpLoop hay pat lps m fuel i1 (lps.getD (j1 - 1) 0)
        else kmpLoop hay pat lps m fuel (i1 + 1) j1
      else kmpLoop hay pat lps m fuel i1 j1
    else none

/-- Inner comparison scan of the naive fallback of `strcasestr` (patterns
over 64 bytes): advance while both bytes are nonzero and fold-equal;
returns the final pattern index. -/
def innerScan (hay pat : List Nat) (hi pi : Nat) : Nat :=
  if h : pat.getD pi 0 ≠ 0 ∧ hay.getD hi 0 ≠ 0 ∧
      toLowerC (hay.getD hi 0) = toLowerC (pat.getD pi 0) then
    innerScan hay pat (hi + 1) (pi + 1)
  else pi
termination_by pat.length - pi
decreasing_by
  have := lt_length_of_getD_ne pat pi h.1
  omega

/-- Outer loop of the naive fallback: first-character filter, then the
inner scan; a match is found when the pattern was exhausted. -/
def naiveLoop (hay pat : List Nat) (k : Nat) : Option Nat :=
  if h : hay.getD k 0 ≠ 0 then
    if toLowerC (hay.getD k 0) = toLowerC (pat.getD 0 0) then
      if pat.getD (innerScan hay pat (k + 1) 1) 0 = 0 then some k
      else naiveLoop hay pat (k + 1)
    else naiveLoop hay pat (k + 1)
  else none
termination_by hay.length - k
decreasing_by
  all_goals have := lt_length_of_getD_ne hay k h
  all_goals omega

/-- `cms::string::strcasestr(haystack, needle)`: empty needle matches at
the start; patterns of at most 64 bytes go through the stack-table KMP,
longer patterns through the naive filtered scan.  Returns the byte offset
of the first case-insensitive occurrence. -/
def strcasestrC (hay pat : List Nat) : Option Nat :=
  if pat.getD 0 0 = 0 then some 0
  else if pat.length ≤ 64 then
    kmpLoop hay pat (computeLPSC pat) pat.length (2 * hay.length + 2) 0 0
  else naiveLoop hay pat 0

/-- `cms::string::equals(s1, s1Len, s2, s2Len, ignoreCase)`: length
mismatch short-circuits to false, identical strings to true, then
`memcmp` or a case-folded byte loop. -/
def equalsLenC (s1 : List Nat) (s1Len : Nat) (s2 : List Nat) (s2Len : Nat)
    (ic : Bool) : Bool :=
  if s1Len ≠ s2Len then false
  else if s1 = s2 then true
  else if ic = false then decide (s1.take s1Len = s2.take s2Len)
  else (List.range s1Len).all
    (fun i => toLowerC (s1.getD i 0) = toLowerC (s2.getD i 0))

/-- `cms::string::equals(s1, s2, ignoreCase)`: the pointer-equality
short-circuit makes `equals(NULL, NULL)` true; a single null argument
yields false. -/
def equalsC (s1 s2 : Option (List Nat)) (ic : Bool) : Bool :=
  match s1, s2 with
  | none, none => true
  | none, some _ => false
  | some _, none => false
  | some a, some b => equalsLenC a a.length b b.length ic

/-- `cms::string::contains(str, strLen, target, targetLen, ignoreCase)`:
an empty pattern is reported as contained. -/
def containsLenC (s t : List Nat) (ic : Bool) : Bool :=
  if t.length > s.length then false
  else if t.length = 0 then true
  else ((if ic then strcasestrC s t else strstrC s t) ≠ none)

/-- `cms::string::contains` with its null-pointer guards. -/
def containsC (s t : Option (List Nat)) (ic : Bool) : Bool :=
  match s, t with
  | some a, some b => containsLenC a b ic
  | _, _ => false

/-- `cms::string::find(str, strLen, target, targetLen, startChar,
ignoreCase)`: resolve the starting character to a byte offset, search from
there, convert the found byte offset back to a logical character index. -/
def findC (str target : Option (List Nat)) (startChar : Nat) (ic : Bool) :
    Int :=
  match str, target with
  | some s, some t =>
    if t.length = 0 ∨ t.length > s.length then -1
    else
      let sp := findUtf8CharStart s startChar
      if sp ≥ s.length then -1
      else
        match (if ic then strcasestrC (s.drop sp) t else strstrC (s.drop sp) t)
            with
        | none => -1
        | some off =>
          Int.ofNat (startChar +
            ((s.drop sp).take off).countP (fun b => Nat.land b 192 ≠ 128))
  | _, _ => -1

/-- C5 counterexample: the claim "equals, contains and find return false or
-1 whenever a string argument is null or the search pattern is empty" is
false on the code: `equals(NULL, NULL)` short-circuits to true through the
pointer-equality test, and `contains` with an empty pattern returns true. -/
theorem invalid_input_claim_false :
    equalsC none none false = true ∧
    containsC (some [97, 98, 99]) (some []) false = true := by
  constructor
  · rfl
  · simp +decide [containsC, containsLenC]

/-- C5 (amended): invalid inputs are handled without undefined behavior and
yield fixed sentinels — `equals` is false when exactly one argument is null
but true when both are null; `contains` is false on a null argument but
true for an empty pattern; `find` returns -1 on a null argument or an
empty pattern. -/
theorem invalid_input_sentinels :
    (∀ s : List Nat,
      equalsC (some s) none false = false ∧
      equalsC none (some s) false = false) ∧
    equalsC none none true = true ∧
    (∀ s : List Nat,
      containsC (some s) none false = false ∧
      containsC none (some s) false = false ∧
      containsC (some s) (some []) false = true) ∧
    (∀ s t : List Nat,
      findC none (some t) 0 false = -1 ∧
      findC (some s) none 0 false = -1 ∧
      findC (some s) (some []) 0 false = -1) := by
  refine ⟨fun s => ⟨rfl, rfl⟩, rfl, fun s => ⟨rfl, rfl, ?_⟩,
    fun s t => ⟨rfl, rfl, ?_⟩⟩
  · show containsLenC s [] false = true
    unfold containsLenC
    rw [if_neg (by simp),
      if_pos (show ([] : List Nat).length = 0 from rfl)]
  · unfold findC
    dsimp only
    rw [if_pos (Or.inl (show ([] : List Nat).length = 0 from rfl))]

/-- Witness for C5 (amended) at concrete inputs. -/
theorem invalid_input_sentinels_witness :
    equalsC (some [97]) none false = false ∧
    findC (some [97]) (some []) 0 false = -1 :=
  ⟨(invalid_input_sentinels.1 [97]).1,
    (invalid_input_sentinels.2.2.2 [97] [98]).2.2⟩

/-! ### UTF-8 sanitizer: `sanitizeUtf8`

The C function rewrites the buffer in place with a read cursor `src` and a
write cursor `dst`; replacements write three bytes while consuming one, so
the write cursor can overtake the read cursor and later reads see freshly
written bytes.  The model keeps both cursors explicit over the physical
buffer and copies byte by byte, exactly like `*dst++ = *src++`. -/

/-- `k` copies of `*dst++ = *src++` (each read sees earlier writes). -/
def copyBytes (buf : List Nat) (s d : Nat) : Nat → List Nat
  | 0 => buf
  | k + 1 => copyBytes (buf.set d (buf.getD s 0)) (s + 1) (d + 1) k

/-- The multi-byte classification of `sanitizeUtf8`: given the four bytes
at the read cursor, the length of the valid 2-, 3- or 4-byte sequence
accepted by the corresponding branch, or `none` when the branch falls into
its replacement arm.  (Single-byte ASCII, `b0 <= 0x7F`, is handled before
this in the loop.) -/
def validSeqLenMB (b0 b1 b2 b3 : Nat) : Option Nat :=
  if 194 ≤ b0 ∧ b0 ≤ 223 then
    if b1 ≠ 0 ∧ Nat.land b1 192 = 128 then some 2 else none
  else if b0 = 224 then
    if b1 ≠ 0 ∧ b2 ≠ 0 ∧ 160 ≤ b1 ∧ b1 ≤ 191 ∧ Nat.land b2 192 = 128 then
      some 3 else none
  else if 225 ≤ b0 ∧ b0 ≤ 236 then
    if b1 ≠ 0 ∧ b2 ≠ 0 ∧ Nat.land b1 192 = 128 ∧ Nat.land b2 192 = 128 then
      some 3 else none
  else if b0 = 237 then
    if b1 ≠ 0 ∧ b2 ≠ 0 ∧ 128 ≤ b1 ∧ b1 ≤ 159 ∧ Nat.land b2 192 = 128 then
      some 3 else none
  else if 238 ≤ b0 ∧ b0 ≤ 239 then
    if b1 ≠ 0 ∧ b2 ≠ 0 ∧ Nat.land b1 192 = 128 ∧ Nat.land b2 192 = 128 then
      some 3 else none
  else if b0 = 240 then
    if b1 ≠ 0 ∧ b2 ≠ 0 ∧ b3 ≠ 0 ∧ 144 ≤ b1 ∧ b1 ≤ 191 ∧
        Nat.land b2 192 = 128 ∧ Nat.land b3 192 = 128 then some 4 else none
  else if 241 ≤ b0 ∧ b0 ≤ 243 then
    if b1 ≠ 0 ∧ b2 ≠ 0 ∧ b3 ≠ 0 ∧ Nat.land b1 192 = 128 ∧
        Nat.land b2 192 = 128 ∧ Nat.land b3 192 = 128 then some 4 else none
  else if b0 = 244 then
    if b1 ≠ 0 ∧ b2 ≠ 0 ∧ b3 ≠ 0 ∧ 128 ≤ b1 ∧ b1 ≤ 143 ∧
        Nat.land b2 192 = 128 ∧ Nat.land b3 192 = 128 then some 4 else none
  else none

theorem validSeqLenMB_range (b0 b1 b2 b3 k : Nat)
    (h : validSeqLenMB b0 b1 b2 b3 = some k) : 2 ≤ k ∧ k ≤ 4 := by
  unfold validSeqLenMB at h
  split_ifs at h <;> simp_all <;> omega

/-- The rewrite loop of `sanitizeUtf8`: ASCII and valid multi-byte
sequences are copied (capacity permitting), anything else is replaced by
the 3-byte U+FFFD when it fits, else by `'?'`, else the pass stops.
Returns the buffer and the final write offset. -/
def sanLoop (buf : List Nat) (maxLen s d : Nat) : List Nat × Nat :=
  if h0 : buf.getD s 0 = 0 then (buf, d)
  else if buf.getD s 0 ≤ 127 then
    if d ≥ maxLen - 1 then (buf, d)
    else sanLoop (buf.set d (buf.getD s 0)) maxLen (s + 1) (d + 1)
  else
    match hk : validSeqLenMB (buf.getD s 0) (buf.getD (s + 1) 0)
        (buf.getD (s + 2) 0) (buf.getD (s + 3) 0) with
    | some k =>
      if d + k ≥ maxLen then (buf, d)
      else sanLoop (copyBytes buf s d k) maxLen (s + k) (d + k)
    | none =>
      if d + 3 < maxLen then
        sanLoop (((buf.set d 239).set (d + 1) 191).set (d + 2) 189) maxLen
          (s + 1) (d + 3)
      else if d < maxLen - 1 then
        sanLoop (buf.set d 63) maxLen (s + 1) (d + 1)
      else (buf, d)
termination_by maxLen - d
decreasing_by
  · omega
  · have := validSeqLenMB_range _ _ _ _ _ hk
    omega
  · omega
  · omega

/-- `cms::string::sanitizeUtf8(str, maxLen)`: run the rewrite loop from the
start, then NUL-terminate at the final write offset. -/
def sanitizeUtf8C (buf : List Nat) (maxLen : Nat) : List Nat × Nat :=
  if maxLen = 0 then (buf, 0)
  else
    let r := sanLoop buf maxLen 0 0
    if r.2 < maxLen then (r.1.set r.2 0, r.2)
    else (r.1.set (maxLen - 1) 0, maxLen - 1)

theorem set_getD_self (l : List Nat) (i : Nat) :
    l.set i (l.getD i 0) = l := by
  induction l generalizing i with
  | nil => simp
  | cons b t ih =>
    cases i with
    | zero => simp [List.getD]
    | succ j =>
      have := ih j
      simpa [List.set, List.getD] using this

theorem set_zero_of_getD_zero (l : List Nat) (i : Nat) (h : l.getD i 0 = 0) :
    l.set i 0 = l := by
  rw [← h, set_getD_self]

theorem copyBytes_length (k : Nat) : ∀ (buf : List Nat) (s d : Nat),
    (copyBytes buf s d k).length = buf.length := by
  induction k with
  | zero => intro buf s d; rfl
  | succ m ih =>
    intro buf s d
    rw [copyBytes, ih, List.length_set]

theorem copyBytes_self (k : Nat) : ∀ (buf : List Nat) (s : Nat),
    copyBytes buf s s k = buf := by
  induction k with
  | zero => intro buf s; rfl
  | succ m ih =>
    intro buf s
    rw [copyBytes, set_getD_self, ih]

theorem take_drop_set_of_lt (l : List Nat) (a b i x : Nat) (h : a + b ≤ i) :
    ((l.set i x).drop a).take b = (l.drop a).take b := by
  apply List.ext_getElem?
  intro j
  rw [List.getElem?_take, List.getElem?_take]
  by_cases hj : j < b
  · rw [if_pos hj, if_pos hj, List.getElem?_drop, List.getElem?_drop,
      List.getElem?_set_ne (by omega)]
  · rw [if_neg hj, if_neg hj]

theorem copyBytes_disjoint (k : Nat) : ∀ (buf : List Nat) (s d : Nat),
    s + k ≤ d → d + k ≤ buf.length →
    copyBytes buf s d k = listCopy buf d ((buf.drop s).take k) := by
  induction k with
  | zero =>
    intro buf s d h1 h2
    rw [copyBytes, List.take_zero, listCopy_nil]
  | succ m ih =>
    intro buf s d h1 h2
    rw [copyBytes]
    rw [ih (buf.set d (buf.getD s 0)) (s + 1) (d + 1) (by omega)
      (by rw [List.length_set]; omega)]
    rw [take_drop_set_of_lt buf (s + 1) m d _ (by omega)]
    rw [set_eq_listCopy buf d _ (by omega)]
    have hm := listCopy_merge2 buf d [buf.getD s 0] ((buf.drop (s + 1)).take m)
      (by
        rw [List.length_singleton, List.length_take, List.length_drop]
        omega)
    rw [List.length_singleton] at hm
    rw [hm]
    congr 1
    have hs : s < buf.length := by omega
    rw [List.drop_eq_getElem_cons hs, List.getD_eq_getElem buf 0 hs]
    rw [List.take_succ_cons]
    rfl

theorem getD_set_ne (l : List Nat) (i x m : Nat) (h : i ≠ m) :
    (l.set i x).getD m 0 = l.getD m 0 := by
  rw [List.getD_eq_getElem?_getD, List.getD_eq_getElem?_getD,
    List.getElem?_set_ne h]

theorem getD_of_drop_take (buf C : List Nat) (p n t : Nat)
    (h : (buf.drop p).take n = C) (ht : t < n) :
    buf.getD (p + t) 0 = C.getD t 0 := by
  rw [List.getD_eq_getElem?_getD, List.getD_eq_getElem?_getD, ← h,
    List.getElem?_take, if_pos ht, List.getElem?_drop]

theorem validSeqLenMB_eq2 (b0 b1 b2 b3 : Nat) :
    validSeqLenMB b0 b1 b2 b3 = some 2 ↔
      (194 ≤ b0 ∧ b0 ≤ 223 ∧ b1 ≠ 0 ∧ Nat.land b1 192 = 128) := by
  unfold validSeqLenMB
  split_ifs <;> simp_all <;> omega

theorem validSeqLenMB_eq3 (b0 b1 b2 b3 : Nat) :
    validSeqLenMB b0 b1 b2 b3 = some 3 ↔
      ((b0 = 224 ∧ b1 ≠ 0 ∧ b2 ≠ 0 ∧ 160 ≤ b1 ∧ b1 ≤ 191 ∧
          Nat.land b2 192 = 128) ∨
       (225 ≤ b0 ∧ b0 ≤ 236 ∧ b1 ≠ 0 ∧ b2 ≠ 0 ∧ Nat.land b1 192 = 128 ∧
          Nat.land b2 192 = 128) ∨
       (b0 = 237 ∧ b1 ≠ 0 ∧ b2 ≠ 0 ∧ 128 ≤ b1 ∧ b1 ≤ 159 ∧
          Nat.land b2 192 = 128) ∨
       (238 ≤ b0 ∧ b0 ≤ 239 ∧ b1 ≠ 0 ∧ b2 ≠ 0 ∧ Nat.land b1 192 = 128 ∧
          Nat.land b2 192 = 128)) := by
  unfold validSeqLenMB
  split_ifs <;> simp_all <;> omega

theorem validSeqLenMB_eq4 (b0 b1 b2 b3 : Nat) :
    validSeqLenMB b0 b1 b2 b3 = some 4 ↔
      ((b0 = 240 ∧ b1 ≠ 0 ∧ b2 ≠ 0 ∧ b3 ≠ 0 ∧ 144 ≤ b1 ∧ b1 ≤ 191 ∧
          Nat.land b2 192 = 128 ∧ Nat.land b3 192 = 128) ∨
       (241 ≤ b0 ∧ b0 ≤ 243 ∧ b1 ≠ 0 ∧ b2 ≠ 0 ∧ b3 ≠ 0 ∧
          Nat.land b1 192 = 128 ∧ Nat.land b2 192 = 128 ∧
          Nat.land b3 192 = 128) ∨
       (b0 = 244 ∧ b1 ≠ 0 ∧ b2 ≠ 0 ∧ b3 ≠ 0 ∧ 128 ≤ b1 ∧ b1 ≤ 143 ∧
          Nat.land b2 192 = 128 ∧ Nat.land b3 192 = 128)) := by
  unfold validSeqLenMB
  split_ifs <;> simp_all <;> omega

/-- One complete sequence as the sanitizer accepts it: a nonzero ASCII
byte, or a multi-byte (2 to 4 bytes) sequence accepted by the corresponding branch. -/
def isChunk (c : List Nat) : Bool :=
  match c with
  | [b] => b ≠ 0 ∧ b ≤ 127
  | [b0, b1] => validSeqLenMB b0 b1 0 0 = some 2
  | [b0, b1, b2] => validSeqLenMB b0 b1 b2 0 = some 3
  | [b0, b1, b2, b3] => validSeqLenMB b0 b1 b2 b3 = some 4
  | _ => false

/-- A byte string that is a concatenation of complete accepted sequences
(the shape of every sanitizer output). -/
inductive SanChunks : List Nat → Prop where
  | nil : SanChunks []
  | cons (c rest : List Nat) :
      isChunk c = true → SanChunks rest → SanChunks (c ++ rest)

theorem isChunk_length (c : List Nat) (h : isChunk c = true) :
    1 ≤ c.length ∧ c.length ≤ 4 := by
  unfold isChunk at h
  rcases c with _ | ⟨b0, _ | ⟨b1, _ | ⟨b2, _ | ⟨b3, _ | _⟩⟩⟩⟩ <;> simp_all

theorem isChunk_ne_zero (c : List Nat) (h : isChunk c = true) :
    ∀ b ∈ c, b ≠ 0 := by
  unfold isChunk at h
  rcases c with _ | ⟨b0, _ | ⟨b1, _ | ⟨b2, _ | ⟨b3, _ | _⟩⟩⟩⟩ <;> simp_all
  · rw [validSeqLenMB_eq2] at h
    exact ⟨by omega, h.2.2.1⟩
  · rw [validSeqLenMB_eq3] at h
    rcases h with h | h | h | h <;> omega
  · rw [validSeqLenMB_eq4] at h
    rcases h with h | h | h <;> omega

theorem SanChunks_ne_zero (C : List Nat) (h : SanChunks C) :
    ∀ b ∈ C, b ≠ 0 := by
  induction h with
  | nil => simp
  | cons c rest hc _ ih =>
    intro b hb
    rw [List.mem_append] at hb
    rcases hb with hb | hb
    · exact isChunk_ne_zero c hc b hb
    · exact ih b hb

theorem SanChunks_snoc (A c : List Nat) (hA : SanChunks A)
    (hc : isChunk c = true) : SanChunks (A ++ c) := by
  induction hA with
  | nil =>
    rw [List.nil_append, ← List.append_nil c]
    exact SanChunks.cons c [] hc SanChunks.nil
  | cons c0 rest hc0 _ ih =>
    rw [List.append_assoc]
    exact SanChunks.cons c0 (rest ++ c) hc0 ih

theorem isChunk_repl : isChunk [239, 191, 189] = true := by decide

theorem isChunk_quest : isChunk [63] = true := by decide

theorem isChunk_ascii (b : Nat) (h1 : b ≠ 0) (h2 : b ≤ 127) :
    isChunk [b] = true := by
  unfold isChunk
  simp [h1, h2]

theorem take_succ_set (l : List Nat) (d x : Nat) (h : d < l.length) :
    (l.set d x).take (d + 1) = l.take d ++ [x] := by
  rw [set_eq_listCopy l d x h]
  have := take_listCopy l d [x] (by omega)
  simpa using this

theorem set_three_eq_listCopy (buf : List Nat) (d a b c : Nat)
    (h : d + 3 ≤ buf.length) :
    ((buf.set d a).set (d + 1) b).set (d + 2) c = listCopy buf d [a, b, c] := by
  rw [set_eq_listCopy buf d a (by omega)]
  rw [set_eq_listCopy _ (d + 1) b
    (by rw [listCopy_length _ _ _ (by simp; omega)]; omega)]
  have hm1 := listCopy_merge2 buf d [a] [b] (by simp; omega)
  rw [List.length_singleton] at hm1
  rw [hm1]
  rw [set_eq_listCopy _ (d + 2) c
    (by rw [listCopy_length _ _ _ (by simp; omega)]; omega)]
  have hm2 := listCopy_merge2 buf d [a, b] [c] (by simp; omega)
  have e2 : ([a, b] : List Nat).length = 2 := rfl
  rw [e2] at hm2
  have e3 : ([a] ++ [b] : List Nat) = [a, b] := rfl
  rw [e3, hm2]
  rfl

/-- The bytes immediately ahead of the read cursor when the write cursor
is exactly two bytes ahead: always replacement-character debris or a
previously written `'?'`. -/
def debrisPair (x y : Nat) : Prop :=
  (x = 191 ∧ y = 189) ∨ (x = 189 ∧ y = 63) ∨ (x = 63 ∧ y = 63)

theorem validSeqLenMB_b0_ge (b0 b1 b2 b3 k : Nat)
    (h : validSeqLenMB b0 b1 b2 b3 = some k) : 194 ≤ b0 := by
  unfold validSeqLenMB at h
  split_ifs at h <;> simp_all <;> omega

theorem drop_cons_getD (buf : List Nat) (s : Nat) (h : s < buf.length) :
    buf.drop s = buf.getD s 0 :: buf.drop (s + 1) := by
  rw [List.drop_eq_getElem_cons h, List.getD_eq_getElem buf 0 h]

theorem drop_take_two (buf : List Nat) (s : Nat) (h : s + 2 ≤ buf.length) :
    (buf.drop s).take 2 = [buf.getD s 0, buf.getD (s + 1) 0] := by
  rw [drop_cons_getD buf s (by omega), drop_cons_getD buf (s + 1) (by omega)]
  rfl

theorem drop_take_three (buf : List Nat) (s : Nat) (h : s + 3 ≤ buf.length) :
    (buf.drop s).take 3 =
      [buf.getD s 0, buf.getD (s + 1) 0, buf.getD (s + 2) 0] := by
  rw [drop_cons_getD buf s (by omega), drop_cons_getD buf (s + 1) (by omega),
    drop_cons_getD buf (s + 2) (by omega)]
  rfl

theorem drop_take_four (buf : List Nat) (s : Nat) (h : s + 4 ≤ buf.length) :
    (buf.drop s).take 4 =
      [buf.getD s 0, buf.getD (s + 1) 0, buf.getD (s + 2) 0,
        buf.getD (s + 3) 0] := by
  rw [drop_cons_getD buf s (by omega), drop_cons_getD buf (s + 1) (by omega),
    drop_cons_getD buf (s + 2) (by omega), drop_cons_getD buf (s + 3) (by omega)]
  rfl

theorem isChunk_of_some2 (b0 b1 b2 b3 : Nat)
    (h : validSeqLenMB b0 b1 b2 b3 = some 2) : isChunk [b0, b1] = true := by
  unfold isChunk
  rw [validSeqLenMB_eq2] at h
  exact decide_eq_true ((validSeqLenMB_eq2 b0 b1 0 0).mpr h)

theorem isChunk_of_some3 (b0 b1 b2 b3 : Nat)
    (h : validSeqLenMB b0 b1 b2 b3 = some 3) : isChunk [b0, b1, b2] = true := by
  unfold isChunk
  rw [validSeqLenMB_eq3] at h
  exact decide_eq_true ((validSeqLenMB_eq3 b0 b1 b2 0).mpr h)

theorem isChunk_of_some4 (b0 b1 b2 b3 : Nat)
    (h : validSeqLenMB b0 b1 b2 b3 = some 4) :
    isChunk [b0, b1, b2, b3] = true := by
  unfold isChunk
  rw [validSeqLenMB_eq4] at h
  exact decide_eq_true ((validSeqLenMB_eq4 b0 b1 b2 b3).mpr h)

theorem chunk_of_some (buf : List Nat) (s k : Nat)
    (h : validSeqLenMB (buf.getD s 0) (buf.getD (s + 1) 0)
      (buf.getD (s + 2) 0) (buf.getD (s + 3) 0) = some k)
    (hlen : s + k ≤ buf.length) :
    isChunk ((buf.drop s).take k) = true := by
  obtain ⟨hk1, hk2⟩ := validSeqLenMB_range _ _ _ _ _ h
  interval_cases k
  · rw [drop_take_two buf s (by omega)]
    exact isChunk_of_some2 _ _ _ _ h
  · rw [drop_take_three buf s (by omega)]
    exact isChunk_of_some3 _ _ _ _ h
  · rw [drop_take_four buf s (by omega)]
    exact isChunk_of_some4 _ _ _ _ h

theorem chunk_len (buf : List Nat) (s k : Nat) (h : s + k ≤ buf.length) :
    ((buf.drop s).take k).length = k := by
  rw [List.length_take, List.length_drop]
  omega

theorem sanLoop_chunks (maxLen : Nat) (hML : 1 ≤ maxLen) :
    ∀ (n : Nat) (buf : List Nat) (s d : Nat),
      maxLen - d ≤ n →
      buf.length = maxLen → s ≤ d → d ≤ maxLen - 1 → 2 ∣ (d - s) →
      SanChunks (buf.take d) →
      (d - s = 2 → debrisPair (buf.getD s 0) (buf.getD (s + 1) 0)) →
      (sanLoop buf maxLen s d).1.length = maxLen ∧
      (sanLoop buf maxLen s d).2 ≤ maxLen - 1 ∧
      SanChunks ((sanLoop buf maxLen s d).1.take (sanLoop buf maxLen s d).2) := by
  intro n
  induction n with
  | zero =>
    intro buf s d hn hlen hsd hd hpar hch hpair
    exact absurd hn (by omega)
  | succ m ih =>
    intro buf s d hn hlen hsd hd hpar hch hpair
    rw [sanLoop]
    by_cases h0 : buf.getD s 0 = 0
    · rw [dif_pos h0]
      exact ⟨hlen, hd, hch⟩
    · rw [dif_neg h0]
      by_cases hascii : buf.getD s 0 ≤ 127
      · rw [if_pos hascii]
        by_cases hroom : d ≥ maxLen - 1
        · rw [if_pos hroom]
          exact ⟨hlen, hd, hch⟩
        · rw [if_neg hroom]
          apply ih
          · omega
          · rw [List.length_set]; exact hlen
          · omega
          · omega
          · omega
          · rw [take_succ_set buf d _ (by omega)]
            exact SanChunks_snoc _ _ hch (isChunk_ascii _ h0 hascii)
          · intro hg2
            have hg2o : d - s = 2 := by omega
            have hp := hpair hg2o
            have hx : buf.getD s 0 = 63 := by
              rcases hp with ⟨ha, _⟩ | ⟨ha, _⟩ | ⟨ha, _⟩ <;> omega
            have hy : buf.getD (s + 1) 0 = 63 := by
              rcases hp with ⟨ha, hb⟩ | ⟨ha, hb⟩ | ⟨ha, hb⟩ <;> omega
            have e1 : (buf.set d (buf.getD s 0)).getD (s + 1) 0 =
                buf.getD (s + 1) 0 := getD_set_ne buf d _ (s + 1) (by omega)
            have e2 : (buf.set d (buf.getD s 0)).getD (s + 1 + 1) 0 =
                buf.getD s 0 := by
              have hde : d = s + 1 + 1 := by omega
              rw [← hde]
              exact getD_set_self buf d _ (by omega)
            rw [e1, e2, hx, hy]
            right; right; exact ⟨rfl, rfl⟩
      · rw [if_neg hascii]
        split
        · -- valid multi-byte sequence of length k
          rename_i k hk
          obtain ⟨hk2, hk4⟩ := validSeqLenMB_range _ _ _ _ _ hk
          by_cases hroom : d + k ≥ maxLen
          · rw [if_pos hroom]
            exact ⟨hlen, hd, hch⟩
          · rw [if_neg hroom]
            by_cases hg2 : d - s = 2
            · exfalso
              have hp := hpair hg2
              have hb0 := validSeqLenMB_b0_ge _ _ _ _ _ hk
              rcases hp with ⟨ha, _⟩ | ⟨ha, _⟩ | ⟨ha, _⟩ <;> omega
            · by_cases hg0 : d - s = 0
              · -- write cursor equals read cursor: the copy is the identity
                have hsd0 : s = d := by omega
                rw [hsd0, copyBytes_self]
                apply ih
                · omega
                · exact hlen
                · omega
                · omega
                · omega
                · rw [List.take_add]
                  apply SanChunks_snoc _ _ hch
                  rw [← hsd0]
                  exact chunk_of_some buf s k (by rw [hsd0] at hk ⊢; exact hk)
                    (by omega)
                · intro hg2n
                  omega
              · -- write cursor at least 4 ahead: a block copy
                have hg4 : 4 ≤ d - s := by omega
                rw [copyBytes_disjoint k buf s d (by omega) (by omega)]
                apply ih
                · omega
                · rw [listCopy_length]
                  · exact hlen
                  · rw [chunk_len buf s k (by omega)]; omega
                · omega
                · omega
                · omega
                · have ht := take_listCopy buf d ((buf.drop s).take k)
                    (by omega)
                  rw [chunk_len buf s k (by omega)] at ht
                  rw [ht]
                  exact SanChunks_snoc _ _ hch
                    (chunk_of_some buf s k hk (by omega))
                · intro hg2n
                  omega
        · -- invalid sequence: replacement character, '?', or stop
          rename_i hk
          by_cases hroom3 : d + 3 < maxLen
          · rw [if_pos hroom3]
            apply ih
            · omega
            · simp only [List.length_set]; exact hlen
            · omega
            · omega
            · omega
            · rw [set_three_eq_listCopy buf d 239 191 189 (by omega)]
              have ht := take_listCopy buf d [239, 191, 189] (by omega)
              have e3 : ([239, 191, 189] : List Nat).length = 3 := rfl
              rw [e3] at ht
              rw [ht]
              exact SanChunks_snoc _ _ hch isChunk_repl
            · intro hg2n
              have hg0 : d - s = 0 := by omega
              have hde : d = s := by omega
              have e1 : (((buf.set d 239).set (d + 1) 191).set (d + 2) 189).getD
                  (s + 1) 0 = 191 := by
                rw [getD_set_ne _ _ _ _ (by omega)]
                have : s + 1 = d + 1 := by omega
                rw [this]
                exact getD_set_self _ _ _ (by rw [List.length_set]; omega)
              have e2 : (((buf.set d 239).set (d + 1) 191).set (d + 2) 189).getD
                  (s + 1 + 1) 0 = 189 := by
                have : s + 1 + 1 = d + 2 := by omega
                rw [this]
                exact getD_set_self _ _ _
                  (by rw [List.length_set, List.length_set]; omega)
              rw [e1, e2]
              left; exact ⟨rfl, rfl⟩
          · rw [if_neg hroom3]
            by_cases hroomq : d < maxLen - 1
            · rw [if_pos hroomq]
              apply ih
              · omega
              · rw [List.length_set]; exact hlen
              · omega
              · omega
              · omega
              · rw [take_succ_set buf d 63 (by omega)]
                exact SanChunks_snoc _ _ hch isChunk_quest
              · intro hg2n
                have hg2o : d - s = 2 := by omega
                have hp := hpair hg2o
                have e1 : (buf.set d 63).getD (s + 1) 0 = buf.getD (s + 1) 0 :=
                  getD_set_ne buf d 63 (s + 1) (by omega)
                have e2 : (buf.set d 63).getD (s + 1 + 1) 0 = 63 := by
                  have : s + 1 + 1 = d := by omega
                  rw [this]
                  exact getD_set_self buf d 63 (by omega)
                rw [e1, e2]
                rcases hp with ⟨ha, hb⟩ | ⟨ha, hb⟩ | ⟨ha, hb⟩
                · right; left; exact ⟨hb, rfl⟩
                · right; right; exact ⟨hb, rfl⟩
                · exact absurd ha (by omega)
            · rw [if_neg hroomq]
              exact ⟨hlen, hd, hch⟩

theorem drop_take_split (buf : List Nat) (p m n : Nat) (A B : List Nat)
    (hA : A.length = m) (h : (buf.drop p).take (m + n) = A ++ B) :
    (buf.drop p).take m = A ∧ (buf.drop (p + m)).take n = B := by
  constructor
  · have h1 := congrArg (List.take m) h
    rw [List.take_take, Nat.min_eq_left (by omega)] at h1
    rw [h1, List.take_append_eq_append_take, hA, Nat.sub_self, List.take_zero,
      List.append_nil, List.take_of_length_le (le_of_eq hA)]
  · have h2 := congrArg (List.drop m) h
    rw [List.drop_take] at h2
    have e1 : m + n - m = n := by omega
    rw [e1, List.drop_drop] at h2
    rw [h2, ← hA, List.drop_left]

theorem sanLoop_id (maxLen : Nat) (C : List Nat) (hC : SanChunks C) :
    ∀ (buf : List Nat) (p : Nat),
      buf.length = maxLen → p + C.length ≤ maxLen - 1 →
      (buf.drop p).take C.length = C →
      buf.getD (p + C.length) 0 = 0 →
      sanLoop buf maxLen p p = (buf, p + C.length) := by
  induction hC with
  | nil =>
    intro buf p hlen hp htk h0
    rw [sanLoop]
    rw [dif_pos (by simpa using h0)]
    simp
  | cons c rest hc hrest ih =>
    intro buf p hlen hp htk h0
    have hcl := isChunk_length c hc
    rw [List.length_append] at hp h0
    obtain ⟨hta, htb⟩ := drop_take_split buf p c.length rest.length c rest rfl
      (by rw [← List.length_append]; exact htk)
    have hread : ∀ t, t < c.length → buf.getD (p + t) 0 = c.getD t 0 :=
      fun t ht => getD_of_drop_take buf c p c.length t hta ht
    have hrest0 : buf.getD (p + c.length + rest.length) 0 = 0 := by
      have e : p + c.length + rest.length = p + (c.length + rest.length) := by
        omega
      rw [e]; exact h0
    have hihres := ih buf (p + c.length) hlen (by omega) htb hrest0
    -- dispatch on the shape of the chunk
    rcases c with _ | ⟨b0, _ | ⟨b1, _ | ⟨b2, _ | ⟨b3, _ | crest⟩⟩⟩⟩
    · simp at hcl
    · -- ASCII chunk [b0]
      have hb : b0 ≠ 0 ∧ b0 ≤ 127 := by
        unfold isChunk at hc
        simpa using hc
      have hr0 : buf.getD p 0 = b0 := by
        have := hread 0 (by simp)
        simpa using this
      rw [sanLoop]
      rw [dif_neg (by rw [hr0]; exact hb.1)]
      rw [if_pos (by rw [hr0]; exact hb.2)]
      rw [if_neg (by omega)]
      rw [hr0]
      rw [show buf.set p b0 = buf from by rw [← hr0, set_getD_self]]
      have hih2 : sanLoop buf maxLen (p + 1) (p + 1) =
          (buf, p + 1 + rest.length) := by simpa using hihres
      rw [hih2]
      simp <;> omega
    · -- two-byte chunk
      have hv : validSeqLenMB b0 b1 0 0 = some 2 := by
        unfold isChunk at hc
        simpa using hc
      have hr0 : buf.getD p 0 = b0 := by simpa using hread 0 (by simp)
      have hr1 : buf.getD (p + 1) 0 = b1 := by simpa using hread 1 (by simp)
      have hvk : validSeqLenMB (buf.getD p 0) (buf.getD (p + 1) 0)
          (buf.getD (p + 2) 0) (buf.getD (p + 3) 0) = some 2 := by
        rw [hr0, hr1, validSeqLenMB_eq2]
        exact (validSeqLenMB_eq2 b0 b1 0 0).mp hv
      have hb0 := validSeqLenMB_b0_ge _ _ _ _ _ hvk
      rw [sanLoop]
      rw [dif_neg (by omega)]
      rw [if_neg (by omega)]
      split
      · rename_i k hkk
        rw [hvk] at hkk
        have hke : k = 2 := by
          have := hkk
          simp at this
          omega
        subst hke
        rw [if_neg (by simp at hp ⊢; omega)]
        rw [copyBytes_self]
        have hih2 : sanLoop buf maxLen (p + 2) (p + 2) =
            (buf, p + 2 + rest.length) := by simpa using hihres
        rw [hih2]
        simp <;> omega
      · rename_i hkk
        rw [hvk] at hkk
        exact absurd hkk (by simp)
    · -- three-byte chunk
      have hv : validSeqLenMB b0 b1 b2 0 = some 3 := by
        unfold isChunk at hc
        simpa using hc
      have hr0 : buf.getD p 0 = b0 := by simpa using hread 0 (by simp)
      have hr1 : buf.getD (p + 1) 0 = b1 := by simpa using hread 1 (by simp)
      have hr2 : buf.getD (p + 2) 0 = b2 := by simpa using hread 2 (by simp)
      have hvk : validSeqLenMB (buf.getD p 0) (buf.getD (p + 1) 0)
          (buf.getD (p + 2) 0) (buf.getD (p + 3) 0) = some 3 := by
        rw [hr0, hr1, hr2, validSeqLenMB_eq3]
        exact (validSeqLenMB_eq3 b0 b1 b2 0).mp hv
      have hb0 := validSeqLenMB_b0_ge _ _ _ _ _ hvk
      rw [sanLoop]
      rw [dif_neg (by omega)]
      rw [if_neg (by omega)]
      split
      · rename_i k hkk
        rw [hvk] at hkk
        have hke : k = 3 := by
          have := hkk
          simp at this
          omega
        subst hke
        rw [if_neg (by simp at hp ⊢; omega)]
        rw [copyBytes_self]
        have hih2 : sanLoop buf maxLen (p + 3) (p + 3) =
            (buf, p + 3 + rest.length) := by simpa using hihres
        rw [hih2]
        simp <;> omega
      · rename_i hkk
        rw [hvk] at hkk
        exact absurd hkk (by simp)
    · -- four-byte chunk
      have hv : validSeqLenMB b0 b1 b2 b3 = some 4 := by
        unfold isChunk at hc
        simpa using hc
      have hr0 : buf.getD p 0 = b0 := by simpa using hread 0 (by simp)
      have hr1 : buf.getD (p + 1) 0 = b1 := by simpa using hread 1 (by simp)
      have hr2 : buf.getD (p + 2) 0 = b2 := by simpa using hread 2 (by simp)
      have hr3 : buf.getD (p + 3) 0 = b3 := by simpa using hread 3 (by simp)
      have hvk : validSeqLenMB (buf.getD p 0) (buf.getD (p + 1) 0)
          (buf.getD (p + 2) 0) (buf.getD (p + 3) 0) = some 4 := by
        rw [hr0, hr1, hr2, hr3]
        exact hv
      have hb0 := validSeqLenMB_b0_ge _ _ _ _ _ hvk
      rw [sanLoop]
      rw [dif_neg (by omega)]
      rw [if_neg (by omega)]
      split
      · rename_i k hkk
        rw [hvk] at hkk
        have hke : k = 4 := by
          have := hkk
          simp at this
          omega
        subst hke
        rw [if_neg (by simp at hp ⊢; omega)]
        rw [copyBytes_self]
        have hih2 : sanLoop buf maxLen (p + 4) (p + 4) =
            (buf, p + 4 + rest.length) := by simpa using hihres
        rw [hih2]
        simp <;> omega
      · rename_i hkk
        rw [hvk] at hkk
        exact absurd hkk (by simp)
    · -- chunks have at most four bytes
      simp at hcl

/-- C8: `sanitizeUtf8` is idempotent — applying it twice yields exactly the
same buffer and returned length as applying it once, for every input byte
string and every buffer capacity; and the result of one pass is always
NUL-terminated at the returned length, which never exceeds `maxLen - 1`. -/
theorem sanitize_idempotent :
    ∀ (buf : List Nat) (maxLen : Nat), buf.length = maxLen →
      sanitizeUtf8C (sanitizeUtf8C buf maxLen).1 maxLen =
        sanitizeUtf8C buf maxLen ∧
      (sanitizeUtf8C buf maxLen).2 ≤ maxLen - 1 ∧
      (1 ≤ maxLen →
        (sanitizeUtf8C buf maxLen).1.getD (sanitizeUtf8C buf maxLen).2 0 = 0) := by
  intro buf maxLen hlen
  by_cases hml : maxLen = 0
  · subst hml
    refine ⟨by simp [sanitizeUtf8C], by simp [sanitizeUtf8C], by omega⟩
  · have hML : 1 ≤ maxLen := by omega
    have hmain := sanLoop_chunks maxLen hML maxLen buf 0 0 (by omega) hlen
      (le_refl 0) (by omega) (by omega)
      (by rw [List.take_zero]; exact SanChunks.nil)
      (fun h => absurd h (by omega))
    set r := sanLoop buf maxLen 0 0 with hr
    obtain ⟨hl1, hl2, hch⟩ := hmain
    have hp1 : sanitizeUtf8C buf maxLen = (r.1.set r.2 0, r.2) := by
      unfold sanitizeUtf8C
      rw [if_neg hml]
      dsimp only
      rw [← hr, if_pos (by omega)]
    set B := r.1.set r.2 0 with hB
    have hBlen : B.length = maxLen := by rw [hB, List.length_set]; exact hl1
    have hBtake : B.take r.2 = r.1.take r.2 :=
      take_set_of_le _ _ _ _ (le_refl _)
    have hB0 : B.getD r.2 0 = 0 := getD_set_self _ _ _ (by rw [hl1]; omega)
    have hClen : (B.take r.2).length = r.2 := by
      rw [List.length_take, hBlen]; omega
    have hid := sanLoop_id maxLen (B.take r.2) (by rw [hBtake]; exact hch) B 0
      hBlen (by rw [hClen]; omega)
      (by rw [List.drop_zero, hClen])
      (by rw [hClen, Nat.zero_add]; exact hB0)
    rw [hClen, Nat.zero_add] at hid
    have hp2 : sanitizeUtf8C B maxLen = (B, r.2) := by
      unfold sanitizeUtf8C
      rw [if_neg hml]
      dsimp only
      rw [hid]
      dsimp only
      rw [if_pos (by omega)]
      rw [set_zero_of_getD_zero B r.2 hB0]
    refine ⟨?_, ?_, ?_⟩
    · rw [hp1]
      dsimp only
      rw [hp2]
    · rw [hp1]
      exact hl2
    · intro h1
      rw [hp1]
      exact hB0

theorem sanitize_idempotent_witness :
    ([65, 195, 0, 0, 0, 0, 0, 0] : List Nat).length = 8 ∧
    (sanitizeUtf8C (sanitizeUtf8C [65, 195, 0, 0, 0, 0, 0, 0] 8).1 8 =
        sanitizeUtf8C [65, 195, 0, 0, 0, 0, 0, 0] 8 ∧
      (sanitizeUtf8C [65, 195, 0, 0, 0, 0, 0, 0] 8).2 ≤ 8 - 1 ∧
      (1 ≤ 8 →
        (sanitizeUtf8C [65, 195, 0, 0, 0, 0, 0, 0] 8).1.getD
          (sanitizeUtf8C [65, 195, 0, 0, 0, 0, 0, 0] 8).2 0 = 0)) :=
  ⟨rfl, sanitize_idempotent [65, 195, 0, 0, 0, 0, 0, 0] 8 rfl⟩

/-! ### UTF-8 validation and `insert` -/

/-- `cms::string::validateUtf8(str)` on the content bytes of a
NUL-terminated string: walk the bytes classifying each one to four byte
sequence exactly as the source's branch ladder does (reads past the end of
the list are the NUL and the bytes beyond it, all modelled as 0, which no
continuation or range check accepts). -/
def validateUtf8C (s : List Nat) : Bool :=
  match s with
  | [] => true
  | b0 :: rest =>
    if b0 = 0 then true
    else if b0 ≤ 127 then validateUtf8C rest
    else if 194 ≤ b0 ∧ b0 ≤ 223 then
      if Nat.land (rest.getD 0 0) 192 ≠ 128 then false
      else validateUtf8C (rest.drop 1)
    else if b0 = 224 then
      if rest.getD 0 0 < 160 ∨ 191 < rest.getD 0 0 ∨
          Nat.land (rest.getD 1 0) 192 ≠ 128 then false
      else validateUtf8C (rest.drop 2)
    else if 225 ≤ b0 ∧ b0 ≤ 236 then
      if Nat.land (rest.getD 0 0) 192 ≠ 128 ∨
          Nat.land (rest.getD 1 0) 192 ≠ 128 then false
      else validateUtf8C (rest.drop 2)
    else if b0 = 237 then
      if rest.getD 0 0 < 128 ∨ 159 < rest.getD 0 0 ∨
          Nat.land (rest.getD 1 0) 192 ≠ 128 then false
      else validateUtf8C (rest.drop 2)
    else if 238 ≤ b0 ∧ b0 ≤ 239 then
      if Nat.land (rest.getD 0 0) 192 ≠ 128 ∨
          Nat.land (rest.getD 1 0) 192 ≠ 128 then false
      else validateUtf8C (rest.drop 2)
    else if b0 = 240 then
      if rest.getD 0 0 < 144 ∨ 191 < rest.getD 0 0 ∨
          Nat.land (rest.getD 1 0) 192 ≠ 128 ∨
          Nat.land (rest.getD 2 0) 192 ≠ 128 then false
      else validateUtf8C (rest.drop 3)
    else if 241 ≤ b0 ∧ b0 ≤ 243 then
      if Nat.land (rest.getD 0 0) 192 ≠ 128 ∨
          Nat.land (rest.getD 1 0) 192 ≠ 128 ∨
          Nat.land (rest.getD 2 0) 192 ≠ 128 then false
      else validateUtf8C (rest.drop 3)
    else if b0 = 244 then
      if rest.getD 0 0 < 128 ∨ 143 < rest.getD 0 0 ∨
          Nat.land (rest.getD 1 0) 192 ≠ 128 ∨
          Nat.land (rest.getD 2 0) 192 ≠ 128 then false
      else validateUtf8C (rest.drop 3)
    else false
termination_by s.length
decreasing_by all_goals (simp only [List.length_cons, List.length_drop]; omega)

/-- `cms::string::insert(buffer, maxLen, curLen, charIdx, src)`: resolve the
logical character index to a byte offset, truncate the source length to the
remaining room, shift the tail (terminator included) right with `memmove`
when the insertion point is interior, otherwise place the terminator, then
copy the (possibly truncated) source into the gap. -/
def insertC (buf : List Nat) (maxLen curLen charIdx : Nat) (src : List Nat) :
    List Nat × Nat :=
  if src = [] then (buf, curLen)
  else
    let o := findUtf8CharStart (cStr buf) charIdx
    let srcLen := if maxLen ≤ curLen + src.length then
        (if curLen + 1 < maxLen then maxLen - curLen - 1 else 0)
      else src.length
    if srcLen = 0 then (buf, curLen)
    else
      let buf2 := if o < curLen then
          listCopy buf (o + srcLen) ((buf.drop o).take (curLen - o + 1))
        else buf.set (curLen + srcLen) 0
      (listCopy buf2 o (src.take srcLen), curLen + srcLen)

/-- `StringBase::insert(charIdx, src)`: guard against an empty source, run
the engine insert with the stored capacity, then — when the new length
reaches `_capacity - 1` (an `int` comparison, hence also when the stored
capacity is 0) — run `sanitize()`, which resets the length to the
sanitizer's result. -/
def StringBase.insertM (st : StringBaseSt) (charIdx : Nat) (src : List Nat) :
    StringBaseSt :=
  if src = [] then st
  else
    let r := insertC st.buf st.capacity st.len charIdx src
    if (st.capacity : Int) - 1 ≤ (r.2 : Int) then
      let s2 := sanitizeUtf8C r.1 st.capacity
      { buf := s2.1, capacity := st.capacity, len := s2.2 }
    else { buf := r.1, capacity := st.capacity, len := r.2 }

theorem cStr_ne_zero (buf : List Nat) : ∀ b ∈ cStr buf, b ≠ 0 := by
  intro b hb
  have := List.mem_takeWhile_imp hb
  simpa using this

theorem cStr_take (buf : List Nat) : buf.take (cStr buf).length = cStr buf :=
  (List.prefix_iff_eq_take.mp (List.takeWhile_prefix _)).symm

theorem cStr_getD_zero (buf : List Nat) (h : (cStr buf).length < buf.length) :
    buf.getD (cStr buf).length 0 = 0 := by
  induction buf with
  | nil => simp at h
  | cons b t ih =>
    by_cases hb : b = 0
    · subst hb
      simp [cStr, List.takeWhile_cons]
    · have hc : cStr (b :: t) = b :: cStr t := by
        simp [cStr, List.takeWhile_cons, hb]
      rw [hc] at h ⊢
      rw [List.length_cons] at h ⊢
      rw [List.getD_cons_succ]
      exact ih (by simp only [List.length_cons] at h; omega)

theorem list_split_at (l : List Nat) (n : Nat) (h : n < l.length) :
    l = l.take n ++ l.getD n 0 :: l.drop (n + 1) := by
  conv_lhs => rw [← List.take_append_drop n l]
  rw [drop_cons_getD l n h]

theorem cStr_eq_of_take (R A : List Nat) (hzf : ∀ a ∈ A, a ≠ 0)
    (ht : R.take A.length = A) (h0 : R.getD A.length 0 = 0)
    (hlt : A.length < R.length) : cStr R = A := by
  have hsplit := list_split_at R A.length hlt
  rw [ht, h0] at hsplit
  rw [hsplit]
  exact cStr_append_zero A _ hzf

theorem land192_of_cont (b : Nat) (h1 : 128 ≤ b) (h2 : b ≤ 191) :
    Nat.land b 192 = 128 := by
  interval_cases b <;> decide

theorem land192_ne_of_ascii (b : Nat) (h : b ≤ 127) :
    Nat.land b 192 ≠ 128 := by
  interval_cases b <;> decide

theorem land192_ne_of_lead (b : Nat) (h1 : 194 ≤ b) (h2 : b ≤ 244) :
    Nat.land b 192 ≠ 128 := by
  interval_cases b <;> decide

theorem ne_zero_of_land192 (b : Nat) (h : Nat.land b 192 = 128) : b ≠ 0 := by
  intro h0
  rw [h0] at h
  exact absurd h (by decide)

/-- The validator consumes one accepted chunk and continues on the rest. -/
theorem validate_chunk_step (c rest : List Nat) (hc : isChunk c = true) :
    validateUtf8C (c ++ rest) = validateUtf8C rest := by
  rcases c with _ | ⟨b0, _ | ⟨b1, _ | ⟨b2, _ | ⟨b3, t4⟩⟩⟩⟩
  · simp
  · simp only [isChunk, decide_eq_true_eq] at hc
    have hc' : b0 ≠ 0 ∧ b0 ≤ 127 := hc
    conv_lhs => rw [List.cons_append, List.nil_append, validateUtf8C]
    have c0 : (b0 = 0) = False := eq_false hc'.1
    have c1 : (b0 ≤ 127) = True := eq_true hc'.2
    simp only [c0, c1, if_false, if_true]
  · simp only [isChunk, decide_eq_true_eq] at hc
    rw [validSeqLenMB_eq2] at hc
    obtain ⟨h194, h223, hb1ne, hland⟩ := hc
    conv_lhs => rw [List.cons_append, List.cons_append, List.nil_append,
      validateUtf8C]
    have c0 : (b0 = 0) = False := eq_false (by omega)
    have c1 : (b0 ≤ 127) = False := eq_false (by omega)
    have c2 : (194 ≤ b0 ∧ b0 ≤ 223) = True := eq_true ⟨h194, h223⟩
    simp only [c0, c1, c2, if_false, if_true, List.getD_cons_zero, hland,
      ne_eq, not_true_eq_false, List.drop_succ_cons, List.drop_zero]
  · simp only [isChunk, decide_eq_true_eq] at hc
    rw [validSeqLenMB_eq3] at hc
    conv_lhs => rw [List.cons_append, List.cons_append, List.cons_append,
      List.nil_append, validateUtf8C]
    rcases hc with ⟨hE0, hb1ne, hb2ne, hlo, hhi, hland2⟩ |
        ⟨hlo0, hhi0, hb1ne, hb2ne, hland1, hland2⟩ |
        ⟨hED, hb1ne, hb2ne, hlo, hhi, hland2⟩ |
        ⟨hlo0, hhi0, hb1ne, hb2ne, hland1, hland2⟩
    · have c0 : (b0 = 0) = False := eq_false (by omega)
      have c1 : (b0 ≤ 127) = False := eq_false (by omega)
      have c2 : (194 ≤ b0 ∧ b0 ≤ 223) = False := eq_false (by omega)
      have c3 : (b0 = 224) = True := eq_true hE0
      have c4 : ((b1 : Nat) < 160 ∨ 191 < b1 ∨
          Nat.land b2 192 ≠ 128) = False := by
        refine eq_false ?_
        rintro (h | h | h)
        · omega
        · omega
        · exact h hland2
      simp only [c0, c1, c2, c3, if_false, if_true, List.getD_cons_zero,
        List.getD_cons_succ, c4, List.drop_succ_cons, List.drop_zero]
    · have c0 : (b0 = 0) = False := eq_false (by omega)
      have c1 : (b0 ≤ 127) = False := eq_false (by omega)
      have c2 : (194 ≤ b0 ∧ b0 ≤ 223) = False := eq_false (by omega)
      have c3 : (b0 = 224) = False := eq_false (by omega)
      have c4 : (225 ≤ b0 ∧ b0 ≤ 236) = True := eq_true ⟨hlo0, hhi0⟩
      have c5 : (Nat.land b1 192 ≠ 128 ∨ Nat.land b2 192 ≠ 128) = False := by
        refine eq_false ?_
        rintro (h | h)
        · exact h hland1
        · exact h hland2
      simp only [c0, c1, c2, c3, c4, if_false, if_true, List.getD_cons_zero,
        List.getD_cons_succ, c5, List.drop_succ_cons, List.drop_zero]
    · have c0 : (b0 = 0) = False := eq_false (by omega)
      have c1 : (b0 ≤ 127) = False := eq_false (by omega)
      have c2 : (194 ≤ b0 ∧ b0 ≤ 223) = False := eq_false (by omega)
      have c3 : (b0 = 224) = False := eq_false (by omega)
      have c4 : (225 ≤ b0 ∧ b0 ≤ 236) = False := eq_false (by omega)
      have c5 : (b0 = 237) = True := eq_true hED
      have c6 : ((b1 : Nat) < 128 ∨ 159 < b1 ∨
          Nat.land b2 192 ≠ 128) = False := by
        refine eq_false ?_
        rintro (h | h | h)
        · omega
        · omega
        · exact h hland2
      simp only [c0, c1, c2, c3, c4, c5, if_false, if_true,
        List.getD_cons_zero, List.getD_cons_succ, c6, List.drop_succ_cons,
        List.drop_zero]
    · have c0 : (b0 = 0) = False := eq_false (by omega)
      have c1 : (b0 ≤ 127) = False := eq_false (by omega)
      have c2 : (194 ≤ b0 ∧ b0 ≤ 223) = False := eq_false (by omega)
      have c3 : (b0 = 224) = False := eq_false (by omega)
      have c4 : (225 ≤ b0 ∧ b0 ≤ 236) = False := eq_false (by omega)
      have c5 : (b0 = 237) = False := eq_false (by omega)
      have c6 : (238 ≤ b0 ∧ b0 ≤ 239) = True := eq_true ⟨hlo0, hhi0⟩
      have c7 : (Nat.land b1 192 ≠ 128 ∨ Nat.land b2 192 ≠ 128) = False := by
        refine eq_false ?_
        rintro (h | h)
        · exact h hland1
        · exact h hland2
      simp only [c0, c1, c2, c3, c4, c5, c6, if_false, if_true,
        List.getD_cons_zero, List.getD_cons_succ, c7, List.drop_succ_cons,
        List.drop_zero]
  · rcases t4 with _ | ⟨x, xs⟩
    · simp only [isChunk, decide_eq_true_eq] at hc
      rw [validSeqLenMB_eq4] at hc
      conv_lhs => rw [List.cons_append, List.cons_append, List.cons_append,
        List.cons_append, List.nil_append, validateUtf8C]
      rcases hc with ⟨hF0, hb1ne, hb2ne, hb3ne, hlo, hhi, hland2, hland3⟩ |
          ⟨hlo0, hhi0, hb1ne, hb2ne, hb3ne, hland1, hland2, hland3⟩ |
          ⟨hF4, hb1ne, hb2ne, hb3ne, hlo, hhi, hland2, hland3⟩
      · have c0 : (b0 = 0) = False := eq_false (by omega)
        have c1 : (b0 ≤ 127) = False := eq_false (by omega)
        have c2 : (194 ≤ b0 ∧ b0 ≤ 223) = False := eq_false (by omega)
        have c3 : (b0 = 224) = False := eq_false (by omega)
        have c4 : (225 ≤ b0 ∧ b0 ≤ 236) = False := eq_false (by omega)
        have c5 : (b0 = 237) = False := eq_false (by omega)
        have c6 : (238 ≤ b0 ∧ b0 ≤ 239) = False := eq_false (by omega)
        have c7 : (b0 = 240) = True := eq_true hF0
        have c8 : ((b1 : Nat) < 144 ∨ 191 < b1 ∨ Nat.land b2 192 ≠ 128 ∨
            Nat.land b3 192 ≠ 128) = False := by
          refine eq_false ?_
          rintro (h | h | h | h)
          · omega
          · omega
          · exact h hland2
          · exact h hland3
        simp only [c0, c1, c2, c3, c4, c5, c6, c7, if_false, if_true,
          List.getD_cons_zero, List.getD_cons_succ, c8, List.drop_succ_cons,
          List.drop_zero]
      · have c0 : (b0 = 0) = False := eq_false (by omega)
        have c1 : (b0 ≤ 127) = False := eq_false (by omega)
        have c2 : (194 ≤ b0 ∧ b0 ≤ 223) = False := eq_false (by omega)
        have c3 : (b0 = 224) = False := eq_false (by omega)
        have c4 : (225 ≤ b0 ∧ b0 ≤ 236) = False := eq_false (by omega)
        have c5 : (b0 = 237) = False := eq_false (by omega)
        have c6 : (238 ≤ b0 ∧ b0 ≤ 239) = False := eq_false (by omega)
        have c7 : (b0 = 240) = False := eq_false (by omega)
        have c8 : (241 ≤ b0 ∧ b0 ≤ 243) = True := eq_true ⟨hlo0, hhi0⟩
        have c9 : (Nat.land b1 192 ≠ 128 ∨ Nat.land b2 192 ≠ 128 ∨
            Nat.land b3 192 ≠ 128) = False := by
          refine eq_false ?_
          rintro (h | h | h)
          · exact h hland1
          · exact h hland2
          · exact h hland3
        simp only [c0, c1, c2, c3, c4, c5, c6, c7, c8, if_false, if_true,
          List.getD_cons_zero, List.getD_cons_succ, c9, List.drop_succ_cons,
          List.drop_zero]
      · have c0 : (b0 = 0) = False := eq_false (by omega)
        have c1 : (b0 ≤ 127) = False := eq_false (by omega)
        have c2 : (194 ≤ b0 ∧ b0 ≤ 223) = False := eq_false (by omega)
        have c3 : (b0 = 224) = False := eq_false (by omega)
        have c4 : (225 ≤ b0 ∧ b0 ≤ 236) = False := eq_false (by omega)
        have c5 : (b0 = 237) = False := eq_false (by omega)
        have c6 : (238 ≤ b0 ∧ b0 ≤ 239) = False := eq_false (by omega)
        have c7 : (b0 = 240) = False := eq_false (by omega)
        have c8 : (241 ≤ b0 ∧ b0 ≤ 243) = False := eq_false (by omega)
        have c9 : (b0 = 244) = True := eq_true hF4
        have c10 : ((b1 : Nat) < 128 ∨ 143 < b1 ∨ Nat.land b2 192 ≠ 128 ∨
            Nat.land b3 192 ≠ 128) = False := by
          refine eq_false ?_
          rintro (h | h | h | h)
          · omega
          · omega
          · exact h hland2
          · exact h hland3
        simp only [c0, c1, c2, c3, c4, c5, c6, c7, c8, c9, if_false, if_true,
          List.getD_cons_zero, List.getD_cons_succ, c10, List.drop_succ_cons,
          List.drop_zero]
    · exact absurd hc (by simp [isChunk])

theorem validate_of_SanChunks (s : List Nat) (h : SanChunks s) :
    validateUtf8C s = true := by
  induction h with
  | nil => rw [validateUtf8C]
  | cons c rest hc _ ih => rw [validate_chunk_step c rest hc]; exact ih

theorem validateUtf8C_cons (b0 : Nat) (rest : List Nat) :
    validateUtf8C (b0 :: rest) =
      (if b0 = 0 then true
       else if b0 ≤ 127 then validateUtf8C rest
       else if 194 ≤ b0 ∧ b0 ≤ 223 then
         if Nat.land (rest.getD 0 0) 192 ≠ 128 then false
         else validateUtf8C (rest.drop 1)
       else if b0 = 224 then
         if rest.getD 0 0 < 160 ∨ 191 < rest.getD 0 0 ∨
             Nat.land (rest.getD 1 0) 192 ≠ 128 then false
         else validateUtf8C (rest.drop 2)
       else if 225 ≤ b0 ∧ b0 ≤ 236 then
         if Nat.land (rest.getD 0 0) 192 ≠ 128 ∨
             Nat.land (rest.getD 1 0) 192 ≠ 128 then false
         else validateUtf8C (rest.drop 2)
       else if b0 = 237 then
         if rest.getD 0 0 < 128 ∨ 159 < rest.getD 0 0 ∨
             Nat.land (rest.getD 1 0) 192 ≠ 128 then false
         else validateUtf8C (rest.drop 2)
       else if 238 ≤ b0 ∧ b0 ≤ 239 then
         if Nat.land (rest.getD 0 0) 192 ≠ 128 ∨
             Nat.land (rest.getD 1 0) 192 ≠ 128 then false
         else validateUtf8C (rest.drop 2)
       else if b0 = 240 then
         if rest.getD 0 0 < 144 ∨ 191 < rest.getD 0 0 ∨
             Nat.land (rest.getD 1 0) 192 ≠ 128 ∨
             Nat.land (rest.getD 2 0) 192 ≠ 128 then false
         else validateUtf8C (rest.drop 3)
       else if 241 ≤ b0 ∧ b0 ≤ 243 then
         if Nat.land (rest.getD 0 0) 192 ≠ 128 ∨
             Nat.land (rest.getD 1 0) 192 ≠ 128 ∨
             Nat.land (rest.getD 2 0) 192 ≠ 128 then false
         else validateUtf8C (rest.drop 3)
       else if b0 = 244 then
         if rest.getD 0 0 < 128 ∨ 143 < rest.getD 0 0 ∨
             Nat.land (rest.getD 1 0) 192 ≠ 128 ∨
             Nat.land (rest.getD 2 0) 192 ≠ 128 then false
         else validateUtf8C (rest.drop 3)
       else false) := by
  rw [validateUtf8C]

/-- A zero-free string the validator accepts is a concatenation of accepted
chunks. -/
theorem SanChunks_of_validate (n : Nat) : ∀ (s : List Nat), s.length ≤ n →
    (∀ b ∈ s, b ≠ 0) → validateUtf8C s = true → SanChunks s := by
  induction n with
  | zero =>
    intro s hl _ _
    have hs : s = [] := List.eq_nil_of_length_eq_zero (by omega)
    rw [hs]
    exact SanChunks.nil
  | succ n ih =>
    intro s hl hzf hv
    rcases s with _ | ⟨b0, rest⟩
    · exact SanChunks.nil
    have hb0 : b0 ≠ 0 := hzf b0 (by simp)
    simp only [List.length_cons] at hl
    rw [validateUtf8C_cons, if_neg hb0] at hv
    by_cases ha : b0 ≤ 127
    · rw [if_pos ha] at hv
      exact SanChunks.cons [b0] rest (isChunk_ascii b0 hb0 ha)
        (ih rest (by omega) (fun b hb => hzf b (by simp [hb])) hv)
    rw [if_neg ha] at hv
    by_cases h2 : 194 ≤ b0 ∧ b0 ≤ 223
    · rw [if_pos h2] at hv
      by_cases hcont : Nat.land (rest.getD 0 0) 192 ≠ 128
      · rw [if_pos hcont] at hv
        exact absurd hv (by simp)
      rw [if_neg hcont] at hv
      push_neg at hcont
      rcases rest with _ | ⟨b1, r1⟩
      · exact absurd hcont (by decide)
      simp only [List.getD_cons_zero] at hcont
      simp only [List.drop_succ_cons, List.drop_zero] at hv
      simp only [List.length_cons] at hl
      have hch : isChunk [b0, b1] = true := by
        simp only [isChunk, decide_eq_true_eq]
        rw [validSeqLenMB_eq2]
        exact ⟨h2.1, h2.2, ne_zero_of_land192 b1 hcont, hcont⟩
      exact SanChunks.cons [b0, b1] r1 hch
        (ih r1 (by omega) (fun b hb => hzf b (by simp [hb])) hv)
    rw [if_neg h2] at hv
    by_cases h3 : b0 = 224
    · rw [if_pos h3] at hv
      by_cases hcond : rest.getD 0 0 < 160 ∨ 191 < rest.getD 0 0 ∨
          Nat.land (rest.getD 1 0) 192 ≠ 128
      · rw [if_pos hcond] at hv
        exact absurd hv (by simp)
      rw [if_neg hcond] at hv
      push_neg at hcond
      obtain ⟨hg1, hg2, hg3⟩ := hcond
      rcases rest with _ | ⟨b1, r1⟩
      · exact absurd hg1 (by decide)
      rcases r1 with _ | ⟨b2, r2⟩
      · simp only [List.getD_cons_succ] at hg3
        exact absurd hg3 (by decide)
      simp only [List.getD_cons_zero, List.getD_cons_succ] at hg1 hg2 hg3
      simp only [List.drop_succ_cons, List.drop_zero] at hv
      simp only [List.length_cons] at hl
      have hch : isChunk [b0, b1, b2] = true := by
        simp only [isChunk, decide_eq_true_eq]
        rw [validSeqLenMB_eq3]
        exact Or.inl ⟨h3, by omega, ne_zero_of_land192 b2 hg3, hg1, hg2, hg3⟩
      exact SanChunks.cons [b0, b1, b2] r2 hch
        (ih r2 (by omega) (fun b hb => hzf b (by simp [hb])) hv)
    rw [if_neg h3] at hv
    by_cases h4 : 225 ≤ b0 ∧ b0 ≤ 236
    · rw [if_pos h4] at hv
      by_cases hcond : Nat.land (rest.getD 0 0) 192 ≠ 128 ∨
          Nat.land (rest.getD 1 0) 192 ≠ 128
      · rw [if_pos hcond] at hv
        exact absurd hv (by simp)
      rw [if_neg hcond] at hv
      push_neg at hcond
      obtain ⟨hg1, hg2⟩ := hcond
      rcases rest with _ | ⟨b1, r1⟩
      · exact absurd hg1 (by decide)
      rcases r1 with _ | ⟨b2, r2⟩
      · simp only [List.getD_cons_succ] at hg2
        exact absurd hg2 (by decide)
      simp only [List.getD_cons_zero, List.getD_cons_succ] at hg1 hg2
      simp only [List.drop_succ_cons, List.drop_zero] at hv
      simp only [List.length_cons] at hl
      have hch : isChunk [b0, b1, b2] = true := by
        simp only [isChunk, decide_eq_true_eq]
        rw [validSeqLenMB_eq3]
        exact Or.inr (Or.inl ⟨h4.1, h4.2, ne_zero_of_land192 b1 hg1,
          ne_zero_of_land192 b2 hg2, hg1, hg2⟩)
      exact SanChunks.cons [b0, b1, b2] r2 hch
        (ih r2 (by omega) (fun b hb => hzf b (by simp [hb])) hv)
    rw [if_neg h4] at hv
    by_cases h5 : b0 = 237
    · rw [if_pos h5] at hv
      by_cases hcond : rest.getD 0 0 < 128 ∨ 159 < rest.getD 0 0 ∨
          Nat.land (rest.getD 1 0) 192 ≠ 128
      · rw [if_pos hcond] at hv
        exact absurd hv (by simp)
      rw [if_neg hcond] at hv
      push_neg at hcond
      obtain ⟨hg1, hg2, hg3⟩ := hcond
      rcases rest with _ | ⟨b1, r1⟩
      · exact absurd hg1 (by decide)
      rcases r1 with _ | ⟨b2, r2⟩
      · simp only [List.getD_cons_succ] at hg3
        exact absurd hg3 (by decide)
      simp only [List.getD_cons_zero, List.getD_cons_succ] at hg1 hg2 hg3
      simp only [List.drop_succ_cons, List.drop_zero] at hv
      simp only [List.length_cons] at hl
      have hch : isChunk [b0, b1, b2] = true := by
        simp only [isChunk, decide_eq_true_eq]
        rw [validSeqLenMB_eq3]
        exact Or.inr (Or.inr (Or.inl ⟨h5, by omega,
          ne_zero_of_land192 b2 hg3, hg1, hg2, hg3⟩))
      exact SanChunks.cons [b0, b1, b2] r2 hch
        (ih r2 (by omega) (fun b hb => hzf b (by simp [hb])) hv)
    rw [if_neg h5] at hv
    by_cases h6 : 238 ≤ b0 ∧ b0 ≤ 239
    · rw [if_pos h6] at hv
      by_cases hcond : Nat.land (rest.getD 0 0) 192 ≠ 128 ∨
          Nat.land (rest.getD 1 0) 192 ≠ 128
      · rw [if_pos hcond] at hv
        exact absurd hv (by simp)
      rw [if_neg hcond] at hv
      push_neg at hcond
      obtain ⟨hg1, hg2⟩ := hcond
      rcases rest with _ | ⟨b1, r1⟩
      · exact absurd hg1 (by decide)
      rcases r1 with _ | ⟨b2, r2⟩
      · simp only [List.getD_cons_succ] at hg2
        exact absurd hg2 (by decide)
      simp only [List.getD_cons_zero, List.getD_cons_succ] at hg1 hg2
      simp only [List.drop_succ_cons, List.drop_zero] at hv
      simp only [List.length_cons] at hl
      have hch : isChunk [b0, b1, b2] = true := by
        simp only [isChunk, decide_eq_true_eq]
        rw [validSeqLenMB_eq3]
        exact Or.inr (Or.inr (Or.inr ⟨h6.1, h6.2,
          ne_zero_of_land192 b1 hg1, ne_zero_of_land192 b2 hg2, hg1, hg2⟩))
      exact SanChunks.cons [b0, b1, b2] r2 hch
        (ih r2 (by omega) (fun b hb => hzf b (by simp [hb])) hv)
    rw [if_neg h6] at hv
    by_cases h7 : b0 = 240
    · rw [if_pos h7] at hv
      by_cases hcond : rest.getD 0 0 < 144 ∨ 191 < rest.getD 0 0 ∨
          Nat.land (rest.getD 1 0) 192 ≠ 128 ∨
          Nat.land (rest.getD 2 0) 192 ≠ 128
      · rw [if_pos hcond] at hv
        exact absurd hv (by simp)
      rw [if_neg hcond] at hv
      push_neg at hcond
      obtain ⟨hg1, hg2, hg3, hg4⟩ := hcond
      rcases rest with _ | ⟨b1, r1⟩
      · exact absurd hg1 (by decide)
      rcases r1 with _ | ⟨b2, r2⟩
      · simp only [List.getD_cons_succ] at hg3
        exact absurd hg3 (by decide)
      rcases r2 with _ | ⟨b3, r3⟩
      · simp only [List.getD_cons_succ] at hg4
        exact absurd hg4 (by decide)
      simp only [List.getD_cons_zero, List.getD_cons_succ] at hg1 hg2 hg3 hg4
      simp only [List.drop_succ_cons, List.drop_zero] at hv
      simp only [List.length_cons] at hl
      have hch : isChunk [b0, b1, b2, b3] = true := by
        simp only [isChunk, decide_eq_true_eq]
        rw [validSeqLenMB_eq4]
        exact Or.inl ⟨h7, by omega, ne_zero_of_land192 b2 hg3,
          ne_zero_of_land192 b3 hg4, hg1, hg2, hg3, hg4⟩
      exact SanChunks.cons [b0, b1, b2, b3] r3 hch
        (ih r3 (by omega) (fun b hb => hzf b (by simp [hb])) hv)
    rw [if_neg h7] at hv
    by_cases h8 : 241 ≤ b0 ∧ b0 ≤ 243
    · rw [if_pos h8] at hv
      by_cases hcond : Nat.land (rest.getD 0 0) 192 ≠ 128 ∨
          Nat.land (rest.getD 1 0) 192 ≠ 128 ∨
          Nat.land (rest.getD 2 0) 192 ≠ 128
      · rw [if_pos hcond] at hv
        exact absurd hv (by simp)
      rw [if_neg hcond] at hv
      push_neg at hcond
      obtain ⟨hg1, hg2, hg3⟩ := hcond
      rcases rest with _ | ⟨b1, r1⟩
      · exact absurd hg1 (by decide)
      rcases r1 with _ | ⟨b2, r2⟩
      · simp only [List.getD_cons_succ] at hg2
        exact absurd hg2 (by decide)
      rcases r2 with _ | ⟨b3, r3⟩
      · simp only [List.getD_cons_succ] at hg3
        exact absurd hg3 (by decide)
      simp only [List.getD_cons_zero, List.getD_cons_succ] at hg1 hg2 hg3
      simp only [List.drop_succ_cons, List.drop_zero] at hv
      simp only [List.length_cons] at hl
      have hch : isChunk [b0, b1, b2, b3] = true := by
        simp only [isChunk, decide_eq_true_eq]
        rw [validSeqLenMB_eq4]
        exact Or.inr (Or.inl ⟨h8.1, h8.2, ne_zero_of_land192 b1 hg1,
          ne_zero_of_land192 b2 hg2, ne_zero_of_land192 b3 hg3,
          hg1, hg2, hg3⟩)
      exact SanChunks.cons [b0, b1, b2, b3] r3 hch
        (ih r3 (by omega) (fun b hb => hzf b (by simp [hb])) hv)
    rw [if_neg h8] at hv
    by_cases h9 : b0 = 244
    · rw [if_pos h9] at hv
      by_cases hcond : rest.getD 0 0 < 128 ∨ 143 < rest.getD 0 0 ∨
          Nat.land (rest.getD 1 0) 192 ≠ 128 ∨
          Nat.land (rest.getD 2 0) 192 ≠ 128
      · rw [if_pos hcond] at hv
        exact absurd hv (by simp)
      rw [if_neg hcond] at hv
      push_neg at hcond
      obtain ⟨hg1, hg2, hg3, hg4⟩ := hcond
      rcases rest with _ | ⟨b1, r1⟩
      · exact absurd hg1 (by decide)
      rcases r1 with _ | ⟨b2, r2⟩
      · simp only [List.getD_cons_succ] at hg3
        exact absurd hg3 (by decide)
      rcases r2 with _ | ⟨b3, r3⟩
      · simp only [List.getD_cons_succ] at hg4
        exact absurd hg4 (by decide)
      simp only [List.getD_cons_zero, List.getD_cons_succ] at hg1 hg2 hg3 hg4
      simp only [List.drop_succ_cons, List.drop_zero] at hv
      simp only [List.length_cons] at hl
      have hch : isChunk [b0, b1, b2, b3] = true := by
        simp only [isChunk, decide_eq_true_eq]
        rw [validSeqLenMB_eq4]
        exact Or.inr (Or.inr ⟨h9, by omega, ne_zero_of_land192 b2 hg3,
          ne_zero_of_land192 b3 hg4, hg1, hg2, hg3, hg4⟩)
      exact SanChunks.cons [b0, b1, b2, b3] r3 hch
        (ih r3 (by omega) (fun b hb => hzf b (by simp [hb])) hv)
    rw [if_neg h9] at hv
    exact absurd hv (by simp)

theorem SanChunks_append (A B : List Nat) (hA : SanChunks A)
    (hB : SanChunks B) : SanChunks (A ++ B) := by
  induction hA with
  | nil => simpa using hB
  | cons c rest hc _ ih =>
    rw [List.append_assoc]
    exact SanChunks.cons c (rest ++ B) hc ih

theorem fcsLoop_le (s : List Nat) :
    ∀ (n p count ci : Nat), s.length - p ≤ n → p ≤ s.length →
      fcsLoop s p count ci ≤ s.length := by
  intro n
  induction n with
  | zero =>
    intro p count ci hn hp
    rw [fcsLoop, dif_neg (by omega)]
    exact hp
  | succ n ihn =>
    intro p count ci hn hp
    rw [fcsLoop]
    by_cases hcond : p < s.length ∧ count < ci
    · rw [dif_pos hcond]
      exact ihn (p + 1) _ ci (by omega) (by omega)
    · rw [dif_neg hcond]
      exact hp

theorem skipContLoop_le (s : List Nat) :
    ∀ (n p : Nat), s.length - p ≤ n → p ≤ s.length →
      skipContLoop s p ≤ s.length := by
  intro n
  induction n with
  | zero =>
    intro p hn hp
    rw [skipContLoop, dif_neg (by omega)]
    exact hp
  | succ n ihn =>
    intro p hn hp
    rw [skipContLoop]
    by_cases hcond : p < s.length ∧ Nat.land (s.getD p 0) 192 = 128
    · rw [dif_pos hcond]
      exact ihn (p + 1) (by omega) (by omega)
    · rw [dif_neg hcond]
      exact hp

theorem fcsLoop_append (A B : List Nat) :
    ∀ (n i count ci : Nat), B.length - i ≤ n →
      fcsLoop (A ++ B) (A.length + i) count ci =
        A.length + fcsLoop B i count ci := by
  intro n
  induction n with
  | zero =>
    intro i count ci hn
    conv_lhs => rw [fcsLoop]
    conv_rhs => rw [fcsLoop]
    rw [dif_neg (by rw [List.length_append]; omega), dif_neg (by omega)]
  | succ n ihn =>
    intro i count ci hn
    have hg : (A ++ B).getD (A.length + i) 0 = B.getD i 0 := by
      rw [List.getD_append_right A B 0 (A.length + i) (by omega),
        Nat.add_sub_cancel_left]
    by_cases hcond : i < B.length ∧ count < ci
    · conv_lhs => rw [fcsLoop]
      conv_rhs => rw [fcsLoop]
      rw [dif_pos (show A.length + i < (A ++ B).length ∧ count < ci by
        rw [List.length_append]; omega), dif_pos hcond]
      rw [hg]
      rw [show A.length + i + 1 = A.length + (i + 1) by omega]
      exact ihn (i + 1) _ ci (by omega)
    · conv_lhs => rw [fcsLoop]
      conv_rhs => rw [fcsLoop]
      rw [dif_neg (by rw [List.length_append]; omega), dif_neg hcond]

theorem skipContLoop_append (A B : List Nat) :
    ∀ (n i : Nat), B.length - i ≤ n →
      skipContLoop (A ++ B) (A.length + i) =
        A.length + skipContLoop B i := by
  intro n
  induction n with
  | zero =>
    intro i hn
    conv_lhs => rw [skipContLoop]
    conv_rhs => rw [skipContLoop]
    rw [dif_neg (by rw [List.length_append]; omega), dif_neg (by omega)]
  | succ n ihn =>
    intro i hn
    have hg : (A ++ B).getD (A.length + i) 0 = B.getD i 0 := by
      rw [List.getD_append_right A B 0 (A.length + i) (by omega),
        Nat.add_sub_cancel_left]
    by_cases hcond : i < B.length ∧ Nat.land (B.getD i 0) 192 = 128
    · conv_lhs => rw [skipContLoop]
      conv_rhs => rw [skipContLoop]
      rw [hg]
      rw [dif_pos (show A.length + i < (A ++ B).length ∧
          Nat.land (B.getD i 0) 192 = 128 by
        rw [List.length_append]; exact ⟨by omega, hcond.2⟩), dif_pos hcond]
      rw [show A.length + i + 1 = A.length + (i + 1) by omega]
      exact ihn (i + 1) (by omega)
    · conv_lhs => rw [skipContLoop]
      conv_rhs => rw [skipContLoop]
      rw [hg]
      rw [dif_neg (by
          rw [List.length_append]
          intro hx
          exact hcond ⟨by omega, hx.2⟩), dif_neg hcond]

/-- Every accepted chunk starts with a byte whose top two bits are not
`10`. -/
theorem chunk_head_lead (c : List Nat) (hc : isChunk c = true) :
    Nat.land (c.getD 0 0) 192 ≠ 128 := by
  rcases c with _ | ⟨b0, _ | ⟨b1, _ | ⟨b2, _ | ⟨b3, _ | t⟩⟩⟩⟩ <;>
    simp only [isChunk, decide_eq_true_eq] at hc
  · exact absurd hc (by simp)
  · exact land192_ne_of_ascii b0 hc.2
  · rw [validSeqLenMB_eq2] at hc
    exact land192_ne_of_lead b0 (by omega) (by omega)
  · rw [validSeqLenMB_eq3] at hc
    rcases hc with h | h | h | h <;>
      exact land192_ne_of_lead b0 (by omega) (by omega)
  · rw [validSeqLenMB_eq4] at hc
    rcases hc with h | h | h <;>
      exact land192_ne_of_lead b0 (by omega) (by omega)
  · exact absurd hc (by simp)

/-- Every byte of an accepted chunk after the first is a continuation
byte. -/
theorem chunk_tail_cont (c : List Nat) (hc : isChunk c = true) :
    ∀ j, 1 ≤ j → j < c.length → Nat.land (c.getD j 0) 192 = 128 := by
  intro j hj1 hj2
  rcases c with _ | ⟨b0, _ | ⟨b1, _ | ⟨b2, _ | ⟨b3, _ | t⟩⟩⟩⟩ <;>
    simp only [isChunk, decide_eq_true_eq] at hc <;>
    simp only [List.length_cons, List.length_nil] at hj2
  · omega
  · omega
  · rw [validSeqLenMB_eq2] at hc
    have hj : j = 1 := by omega
    subst hj
    simp only [List.getD_cons_succ, List.getD_cons_zero]
    exact hc.2.2.2
  · rw [validSeqLenMB_eq3] at hc
    have hj : j = 1 ∨ j = 2 := by omega
    rcases hj with hj | hj <;> subst hj <;>
      simp only [List.getD_cons_succ, List.getD_cons_zero] <;>
      rcases hc with h | h | h | h
    · exact land192_of_cont b1 (by omega) (by omega)
    · exact h.2.2.2.2.1
    · exact land192_of_cont b1 (by omega) (by omega)
    · exact h.2.2.2.2.1
    · exact h.2.2.2.2.2
    · exact h.2.2.2.2.2
    · exact h.2.2.2.2.2
    · exact h.2.2.2.2.2
  · rw [validSeqLenMB_eq4] at hc
    have hj : j = 1 ∨ j = 2 ∨ j = 3 := by omega
    rcases hj with hj | hj | hj <;> subst hj <;>
      simp only [List.getD_cons_succ, List.getD_cons_zero] <;>
      rcases hc with h | h | h
    · exact land192_of_cont b1 (by omega) (by omega)
    · exact h.2.2.2.2.2.1
    · exact land192_of_cont b1 (by omega) (by omega)
    · exact h.2.2.2.2.2.2.1
    · exact h.2.2.2.2.2.2.1
    · exact h.2.2.2.2.2.2.1
    · exact h.2.2.2.2.2.2.2
    · exact h.2.2.2.2.2.2.2
    · exact h.2.2.2.2.2.2.2
  · simp at hc

theorem fcsLoop_cont_walk (s : List Nat) :
    ∀ (n p q count ci : Nat), q - p ≤ n → p ≤ q → q ≤ s.length →
      (∀ j, p ≤ j → j < q → Nat.land (s.getD j 0) 192 = 128) →
      count < ci →
      fcsLoop s p count ci = fcsLoop s q count ci := by
  intro n
  induction n with
  | zero =>
    intro p q count ci hn hpq hq hcont hcc
    have : p = q := by omega
    rw [this]
  | succ n ihn =>
    intro p q count ci hn hpq hq hcont hcc
    by_cases hpq2 : p = q
    · rw [hpq2]
    · conv_lhs => rw [fcsLoop]
      rw [dif_pos ⟨by omega, hcc⟩]
      rw [if_neg (not_not_intro (hcont p le_rfl (by omega)))]
      exact ihn (p + 1) q count ci (by omega) (by omega) hq
        (fun j h1 h2 => hcont j (by omega) h2) hcc

theorem skipCont_walk (s : List Nat) :
    ∀ (n p q : Nat), q - p ≤ n → p ≤ q → q ≤ s.length →
      (∀ j, p ≤ j → j < q → Nat.land (s.getD j 0) 192 = 128) →
      skipContLoop s p = skipContLoop s q := by
  intro n
  induction n with
  | zero =>
    intro p q hn hpq hq hcont
    have : p = q := by omega
    rw [this]
  | succ n ihn =>
    intro p q hn hpq hq hcont
    by_cases hpq2 : p = q
    · rw [hpq2]
    · conv_lhs => rw [skipContLoop]
      rw [dif_pos ⟨by omega, hcont p le_rfl (by omega)⟩]
      exact ihn (p + 1) q (by omega) (by omega) hq
        (fun j h1 h2 => hcont j (by omega) h2)

theorem fcsLoop_count_shift (s : List Nat) :
    ∀ (n p count ci : Nat), s.length - p ≤ n → count ≤ ci →
      fcsLoop s p count ci = fcsLoop s p 0 (ci - count) := by
  intro n
  induction n with
  | zero =>
    intro p count ci hn hcc
    conv_lhs => rw [fcsLoop]
    conv_rhs => rw [fcsLoop]
    rw [dif_neg (by omega), dif_neg (by omega)]
  | succ n ihn =>
    intro p count ci hn hcc
    by_cases hp : p < s.length
    · by_cases hc : count < ci
      · conv_lhs => rw [fcsLoop]
        conv_rhs => rw [fcsLoop]
        rw [dif_pos ⟨hp, hc⟩, dif_pos ⟨hp, by omega⟩]
        by_cases hL : Nat.land (s.getD p 0) 192 ≠ 128
        · rw [if_pos hL, if_pos hL]
          rw [ihn (p + 1) (count + 1) ci (by omega) (by omega)]
          rw [ihn (p + 1) 1 (ci - count) (by omega) (by omega)]
          have : ci - (count + 1) = ci - count - 1 := by omega
          rw [this]
        · rw [if_neg hL, if_neg hL]
          exact ihn (p + 1) count ci (by omega) (by omega)
      · conv_lhs => rw [fcsLoop]
        conv_rhs => rw [fcsLoop]
        rw [dif_neg (by omega), dif_neg (by omega)]
    · conv_lhs => rw [fcsLoop]
      conv_rhs => rw [fcsLoop]
      rw [dif_neg (by omega), dif_neg (by omega)]

theorem fcs_nil (ci : Nat) : findUtf8CharStart [] ci = 0 := by
  unfold findUtf8CharStart
  rw [fcsLoop, dif_neg (by simp), skipContLoop, dif_neg (by simp)]

theorem skipCont_chunks (s : List Nat) (h : SanChunks s) :
    skipContLoop s 0 = 0 := by
  rcases h with _ | ⟨c, rest, hc, hrest⟩
  · rw [skipContLoop, dif_neg (by simp)]
  · rw [skipContLoop]
    have hcl := isChunk_length c hc
    have hlead := chunk_head_lead c hc
    have hg : (c ++ rest).getD 0 0 = c.getD 0 0 :=
      List.getD_append c rest 0 0 (by omega)
    rw [dif_neg (by rw [hg]; intro hx; exact hlead hx.2)]

theorem fcs_zero (s : List Nat) (h : SanChunks s) :
    findUtf8CharStart s 0 = 0 := by
  unfold findUtf8CharStart
  rw [fcsLoop, dif_neg (by omega)]
  exact skipCont_chunks s h

theorem fcs_le (s : List Nat) (ci : Nat) :
    findUtf8CharStart s ci ≤ s.length := by
  unfold findUtf8CharStart
  have h1 : fcsLoop s 0 0 ci ≤ s.length :=
    fcsLoop_le s s.length 0 0 ci (by omega) (by omega)
  exact skipContLoop_le s s.length _ (by omega) h1

/-- `findUtf8CharStart` steps over one complete chunk per requested
character. -/
theorem fcs_step (c rest : List Nat) (hc : isChunk c = true)
    (hrest : SanChunks rest) (i : Nat) (hi : 1 ≤ i) :
    findUtf8CharStart (c ++ rest) i =
      c.length + findUtf8CharStart rest (i - 1) := by
  have hcl := isChunk_length c hc
  have hlead := chunk_head_lead c hc
  have hcont := chunk_tail_cont c hc
  have hg0 : (c ++ rest).getD 0 0 = c.getD 0 0 :=
    List.getD_append c rest 0 0 (by omega)
  have hstep1 : fcsLoop (c ++ rest) 0 0 i = fcsLoop (c ++ rest) 1 1 i := by
    conv_lhs => rw [fcsLoop]
    rw [dif_pos ⟨by rw [List.length_append]; omega, hi⟩]
    rw [hg0, if_pos hlead]
  have hcontCR : ∀ j, 1 ≤ j → j < c.length →
      Nat.land ((c ++ rest).getD j 0) 192 = 128 := by
    intro j h1 h2
    rw [List.getD_append c rest 0 j h2]
    exact hcont j h1 h2
  by_cases h1 : i = 1
  · subst h1
    have hstop : fcsLoop (c ++ rest) 1 1 1 = 1 := by
      rw [fcsLoop, dif_neg (by omega)]
    unfold findUtf8CharStart
    rw [hstep1, hstop]
    have hwalk : skipContLoop (c ++ rest) 1 = skipContLoop (c ++ rest) c.length :=
      skipCont_walk (c ++ rest) c.length 1 c.length (by omega) (by omega)
        (by rw [List.length_append]; omega) hcontCR
    have hshift : skipContLoop (c ++ rest) c.length =
        c.length + skipContLoop rest 0 := by
      simpa using skipContLoop_append c rest rest.length 0 (by omega)
    rw [hwalk, hshift, skipCont_chunks rest hrest]
    rw [fcsLoop, dif_neg (by omega), skipCont_chunks rest hrest]
  · have h2 : 2 ≤ i := by omega
    have hwalk : fcsLoop (c ++ rest) 1 1 i = fcsLoop (c ++ rest) c.length 1 i :=
      fcsLoop_cont_walk (c ++ rest) c.length 1 c.length 1 i (by omega)
        (by omega) (by rw [List.length_append]; omega) hcontCR (by omega)
    have hshift : fcsLoop (c ++ rest) c.length 1 i =
        c.length + fcsLoop rest 0 1 i := by
      simpa using fcsLoop_append c rest rest.length 0 1 i (by omega)
    have hcs : fcsLoop rest 0 1 i = fcsLoop rest 0 0 (i - 1) :=
      fcsLoop_count_shift rest rest.length 0 1 i (by omega) (by omega)
    unfold findUtf8CharStart
    rw [hstep1, hwalk, hshift, hcs]
    have hqle : fcsLoop rest 0 0 (i - 1) ≤ rest.length :=
      fcsLoop_le rest rest.length 0 0 (i - 1) (by omega) (by omega)
    rw [skipContLoop_append c rest rest.length (fcsLoop rest 0 0 (i - 1))
      (by omega)]

/-- For a chunk concatenation, any pair of character indices decomposes the
string into three chunk concatenations, with `findUtf8CharStart` returning
exactly the two split offsets. -/
theorem fcs_decomp (s : List Nat) (h : SanChunks s) :
    ∀ i j : Nat, i ≤ j → ∃ A M B : List Nat,
      s = A ++ M ++ B ∧ SanChunks A ∧ SanChunks M ∧ SanChunks B ∧
      findUtf8CharStart s i = A.length ∧
      findUtf8CharStart s j = A.length + M.length := by
  induction h with
  | nil =>
    intro i j hij
    exact ⟨[], [], [], by simp, SanChunks.nil, SanChunks.nil, SanChunks.nil,
      fcs_nil i, by simpa using fcs_nil j⟩
  | cons c rest hc hrest ih =>
    intro i j hij
    by_cases hj0 : j = 0
    · subst hj0
      have hi0 : i = 0 := by omega
      subst hi0
      have h0 : findUtf8CharStart (c ++ rest) 0 = 0 :=
        fcs_zero (c ++ rest) (SanChunks.cons c rest hc hrest)
      exact ⟨[], [], c ++ rest, by simp, SanChunks.nil, SanChunks.nil,
        SanChunks.cons c rest hc hrest, h0, by simpa using h0⟩
    by_cases hi0 : i = 0
    · subst hi0
      have h0 : findUtf8CharStart (c ++ rest) 0 = 0 :=
        fcs_zero (c ++ rest) (SanChunks.cons c rest hc hrest)
      obtain ⟨A, M, B, hsplit, hA, hM, hB, hfA, hfM⟩ :=
        ih 0 (j - 1) (by omega)
      have hA0 : A.length = 0 := by
        rw [← hfA]
        exact fcs_zero rest hrest
      have hAnil : A = [] := List.eq_nil_of_length_eq_zero hA0
      subst hAnil
      refine ⟨[], c ++ M, B, by simp [hsplit], SanChunks.nil,
        SanChunks.cons c M hc hM, hB, h0, ?_⟩
      rw [fcs_step c rest hc hrest j (by omega), hfM]
      simp only [List.length_nil, List.length_append]
      omega
    · obtain ⟨A, M, B, hsplit, hA, hM, hB, hfA, hfM⟩ :=
        ih (i - 1) (j - 1) (by omega)
      refine ⟨c ++ A, M, B, ?_, SanChunks.cons c A hc hA, hM, hB, ?_, ?_⟩
      · rw [hsplit]
        simp [List.append_assoc]
      · rw [fcs_step c rest hc hrest i (by omega), hfA, List.length_append]
      · rw [fcs_step c rest hc hrest j (by omega), hfM, List.length_append]
        omega

/-- The content of any sanitizer output is a concatenation of accepted
chunks. -/
theorem sanitizeUtf8C_chunks (buf : List Nat) (maxLen : Nat)
    (h : buf.length = maxLen) :
    SanChunks (cStr (sanitizeUtf8C buf maxLen).1) := by
  by_cases hml : maxLen = 0
  · subst hml
    have hb : buf = [] := List.eq_nil_of_length_eq_zero h
    subst hb
    simp only [sanitizeUtf8C, if_pos rfl]
    exact SanChunks.nil
  · have hML : 1 ≤ maxLen := by omega
    obtain ⟨hl1, hl2, hch⟩ := sanLoop_chunks maxLen hML maxLen buf 0 0
      (by omega) h (le_refl 0) (by omega) (by omega)
      (by rw [List.take_zero]; exact SanChunks.nil)
      (fun hx => absurd hx (by omega))
    set r := sanLoop buf maxLen 0 0 with hr
    have hp1 : sanitizeUtf8C buf maxLen = (r.1.set r.2 0, r.2) := by
      unfold sanitizeUtf8C
      rw [if_neg hml]
      dsimp only
      rw [← hr, if_pos (by omega)]
    rw [hp1]
    have hlen2 : (r.1.take r.2).length = r.2 := by
      rw [List.length_take]
      omega
    have hc : cStr (r.1.set r.2 0) = r.1.take r.2 := by
      apply cStr_eq_of_take
      · exact SanChunks_ne_zero _ hch
      · rw [hlen2]
        exact take_set_of_le _ _ _ _ (le_refl _)
      · rw [hlen2]
        exact getD_set_self r.1 r.2 0 (by omega)
      · rw [hlen2, List.length_set]
        omega
    rw [hc]
    exact hch

/-- When the source fits without truncation, `insert` splices it in at the
resolved byte offset and re-terminates: the new content is
`prefix ++ src ++ tail`. -/
theorem insertC_content (buf : List Nat) (maxLen curLen charIdx : Nat)
    (src : List Nat) (hbuf : buf.length = maxLen)
    (hlen : (cStr buf).length = curLen) (hsrc : src ≠ [])
    (hsz : ∀ b ∈ src, b ≠ 0)
    (hfit : curLen + src.length + 1 ≤ maxLen) :
    cStr (insertC buf maxLen curLen charIdx src).1 =
      (cStr buf).take (findUtf8CharStart (cStr buf) charIdx) ++ src ++
        (cStr buf).drop (findUtf8CharStart (cStr buf) charIdx) ∧
    (insertC buf maxLen curLen charIdx src).2 = curLen + src.length := by
  unfold insertC
  rw [if_neg hsrc]
  dsimp only
  have hc1 : ¬ (maxLen ≤ curLen + src.length) := by omega
  have hc2 : ¬ (src.length = 0) :=
    fun hx => hsrc (List.eq_nil_of_length_eq_zero hx)
  simp only [if_neg hc1, if_neg hc2]
  set s := cStr buf with hs
  set o := findUtf8CharStart s charIdx with ho
  have hlen' : (cStr buf).length = curLen := hlen
  have hole : o ≤ curLen := by
    rw [← hlen]
    exact fcs_le s charIdx
  have hcl : curLen < maxLen := by omega
  have htakeS : buf.take curLen = s := by
    rw [← hlen]
    exact cStr_take buf
  have h0 : buf.getD curLen 0 = 0 := by
    rw [← hlen]
    exact cStr_getD_zero buf (by omega)
  have hsk : src.take src.length = src := List.take_length src
  have hzf : ∀ c ∈ s.take o ++ src ++ s.drop o, c ≠ 0 := by
    intro c hc
    rw [List.mem_append, List.mem_append] at hc
    rcases hc with (hc | hc) | hc
    · exact cStr_ne_zero buf c (List.mem_of_mem_take hc)
    · exact hsz c hc
    · exact cStr_ne_zero buf c (List.mem_of_mem_drop hc)
  by_cases hoc : o < curLen
  · rw [if_pos hoc, hsk]
    have hseg : (buf.drop o).take (curLen - o + 1) = s.drop o ++ [0] := by
      have hbd : buf.drop o = s.drop o ++ buf.drop curLen := by
        conv_lhs => rw [← List.take_append_drop curLen buf]
        rw [htakeS, List.drop_append_of_le_length (by omega)]
      rw [hbd]
      rw [show curLen - o + 1 = (s.drop o).length + 1 by
        rw [List.length_drop]; omega]
      rw [List.take_append 1]
      rw [drop_cons_getD buf curLen (by omega), h0]
      simp
    rw [hseg]
    have hb2 : listCopy buf (o + src.length) (s.drop o ++ [0]) =
        buf.take (o + src.length) ++ (s.drop o ++ [0]) ++
          buf.drop (curLen + src.length + 1) := by
      unfold listCopy
      have hidx : o + src.length + (s.drop o ++ [0]).length =
          curLen + src.length + 1 := by
        rw [List.length_append, List.length_drop]
        simp
        omega
      rw [hidx]
    rw [hb2, List.append_assoc]
    set A := buf.take (o + src.length) with hA
    have hAlen : A.length = o + src.length := by
      rw [hA, List.length_take]
      omega
    unfold listCopy
    have ht1 : (A ++ ((s.drop o ++ [0]) ++
        buf.drop (curLen + src.length + 1))).take o = s.take o := by
      rw [List.take_append_of_le_length (by omega)]
      rw [hA, List.take_take, Nat.min_eq_left (by omega)]
      rw [← htakeS, List.take_take, Nat.min_eq_left (by omega)]
    have ht2 : (A ++ ((s.drop o ++ [0]) ++
        buf.drop (curLen + src.length + 1))).drop (o + src.length) =
        (s.drop o ++ [0]) ++ buf.drop (curLen + src.length + 1) := by
      rw [← hAlen]
      exact List.drop_left A _
    rw [ht1, ht2]
    have hre : s.take o ++ src ++ ((s.drop o ++ [0]) ++
        buf.drop (curLen + src.length + 1)) =
        (s.take o ++ src ++ s.drop o) ++
          0 :: buf.drop (curLen + src.length + 1) := by
      simp [List.append_assoc]
    rw [hre, cStr_append_zero _ _ hzf]
    exact ⟨rfl, trivial⟩
  · rw [if_neg hoc, hsk]
    have hoe : o = curLen := by omega
    unfold listCopy
    have ht1 : (buf.set (curLen + src.length) 0).take o = s := by
      rw [hoe, take_set_of_le _ _ _ _ (by omega), htakeS]
    have ht2 : (buf.set (curLen + src.length) 0).drop (o + src.length) =
        0 :: (buf.set (curLen + src.length) 0).drop
          (curLen + src.length + 1) := by
      rw [hoe, drop_cons_getD _ (curLen + src.length)
        (by rw [List.length_set]; omega),
        getD_set_self buf (curLen + src.length) 0 (by omega)]
    rw [ht1, ht2]
    rw [cStr_append_zero (s ++ src) _ (by
      intro c hc
      rw [List.mem_append] at hc
      rcases hc with hc | hc
      · exact cStr_ne_zero buf c hc
      · exact hsz c hc)]
    rw [hoe, List.take_of_length_le (by omega),
      List.drop_eq_nil_of_le (by omega), List.append_nil]
    exact ⟨rfl, trivial⟩

/-- `remove` on valid content cuts between two character boundaries and
leaves valid content. -/
theorem removeC_valid (buf : List Nat) (curLen charIdx charCount : Nat)
    (hlen : (cStr buf).length = curLen) (hcl : curLen < buf.length)
    (hv : validateUtf8C (cStr buf) = true) :
    validateUtf8C (cStr (removeC buf curLen charIdx charCount).1) = true := by
  have hzf := cStr_ne_zero buf
  have hch : SanChunks (cStr buf) :=
    SanChunks_of_validate (cStr buf).length (cStr buf) le_rfl hzf hv
  obtain ⟨A, M, B, hsplit, hA, hM, hB, hfA, hfM⟩ :=
    fcs_decomp (cStr buf) hch charIdx (charIdx + charCount) (by omega)
  unfold removeC
  dsimp only
  by_cases hso : findUtf8CharStart (cStr buf) charIdx ≥ (cStr buf).length
  · rw [if_pos hso]
    exact hv
  · rw [if_neg hso]
    set s := cStr buf with hs
    set so := findUtf8CharStart s charIdx with hso2
    set eo := findUtf8CharStart s (charIdx + charCount) with heo2
    have hlen' : (cStr buf).length = curLen := hlen
    have hsole : so < curLen := by omega
    have heole : eo ≤ curLen := by
      rw [← hlen]
      exact fcs_le s (charIdx + charCount)
    have htakeS : buf.take curLen = s := by
      rw [← hlen]
      exact cStr_take buf
    have h0 : buf.getD curLen 0 = 0 := by
      rw [← hlen']
      exact cStr_getD_zero buf (by omega)
    have hseg : (buf.drop eo).take (curLen - eo + 1) = s.drop eo ++ [0] := by
      have hbd : buf.drop eo = s.drop eo ++ buf.drop curLen := by
        conv_lhs => rw [← List.take_append_drop curLen buf]
        rw [htakeS, List.drop_append_of_le_length (by omega)]
      rw [hbd]
      rw [show curLen - eo + 1 = (s.drop eo).length + 1 by
        rw [List.length_drop]; omega]
      rw [List.take_append 1]
      rw [drop_cons_getD buf curLen (by omega), h0]
      simp
    rw [hseg]
    unfold listCopy
    have ht1 : buf.take so = s.take so := by
      rw [← htakeS, List.take_take, Nat.min_eq_left (by omega)]
    rw [ht1]
    have hre : (s.take so ++ (s.drop eo ++ [0])) ++
        buf.drop (so + (s.drop eo ++ [0]).length) =
        (s.take so ++ s.drop eo) ++
          0 :: buf.drop (so + (s.drop eo ++ [0]).length) := by
      simp [List.append_assoc]
    rw [hre]
    rw [cStr_append_zero (s.take so ++ s.drop eo) _ (by
      intro c hc
      rw [List.mem_append] at hc
      rcases hc with hc | hc
      · exact hzf c (List.mem_of_mem_take hc)
      · exact hzf c (List.mem_of_mem_drop hc))]
    have hTA : s.take so = A := by
      rw [hsplit, hfA, List.append_assoc]
      exact List.take_left A (M ++ B)
    have hTB : s.drop eo = B := by
      rw [hsplit, hfM, ← List.length_append]
      exact List.drop_left (A ++ M) B
    rw [hTA, hTB]
    exact validate_of_SanChunks (A ++ B) (SanChunks_append A B hA hB)

theorem insert_buf_length (buf : List Nat) (maxLen curLen o L : Nat)
    (hbuf : buf.length = maxLen) (ho : o ≤ curLen)
    (hfit : curLen + L + 1 ≤ maxLen) (src' : List Nat)
    (hsrc' : src'.length = L) :
    (listCopy (if o < curLen then
        listCopy buf (o + L) ((buf.drop o).take (curLen - o + 1))
      else buf.set (curLen + L) 0) o src').length = maxLen := by
  by_cases hoc : o < curLen
  · rw [if_pos hoc]
    have hseg : ((buf.drop o).take (curLen - o + 1)).length = curLen - o + 1 := by
      rw [List.length_take, List.length_drop]
      omega
    have h1 : (listCopy buf (o + L)
        ((buf.drop o).take (curLen - o + 1))).length = maxLen := by
      rw [listCopy_length _ _ _ (by rw [hseg, hbuf]; omega)]
      exact hbuf
    rw [listCopy_length _ _ _ (by rw [h1, hsrc']; omega)]
    exact h1
  · rw [if_neg hoc]
    have h1 : (buf.set (curLen + L) 0).length = maxLen := by
      rw [List.length_set]
      exact hbuf
    rw [listCopy_length _ _ _ (by rw [h1, hsrc']; omega)]
    exact h1

theorem insertC_length (buf : List Nat) (maxLen curLen charIdx : Nat)
    (src : List Nat) (hbuf : buf.length = maxLen)
    (hlen : (cStr buf).length = curLen) :
    (insertC buf maxLen curLen charIdx src).1.length = maxLen := by
  unfold insertC
  by_cases hsrc : src = []
  · rw [if_pos hsrc]
    exact hbuf
  rw [if_neg hsrc]
  dsimp only
  have hole : findUtf8CharStart (cStr buf) charIdx ≤ curLen := by
    rw [← hlen]
    exact fcs_le _ _
  by_cases htr : maxLen ≤ curLen + src.length
  · simp only [if_pos htr]
    by_cases hroom : curLen + 1 < maxLen
    · simp only [if_pos hroom]
      by_cases hz : maxLen - curLen - 1 = 0
      · rw [if_pos hz]
        exact hbuf
      · rw [if_neg hz]
        dsimp only
        exact insert_buf_length buf maxLen curLen _ _ hbuf hole (by omega) _
          (by rw [List.length_take]; omega)
    · simp only [if_neg hroom, if_true]
      exact hbuf
  · simp only [if_neg htr]
    by_cases hz : src.length = 0
    · rw [if_pos hz]
      exact hbuf
    · rw [if_neg hz]
      dsimp only
      exact insert_buf_length buf maxLen curLen _ src.length hbuf hole
        (by omega) _ (by rw [List.take_length])

/-- The facade insert keeps the content valid UTF-8: on the truncating
path it sanitizes, on the plain path it splices valid text at a character
boundary of valid content. -/
theorem insertM_valid (st : StringBaseSt) (charIdx : Nat) (src : List Nat)
    (hbuf : st.buf.length = st.capacity)
    (hlen : (cStr st.buf).length = st.len)
    (hlt : st.len < st.capacity)
    (hv : validateUtf8C (cStr st.buf) = true)
    (hsz : ∀ b ∈ src, b ≠ 0)
    (hvs : validateUtf8C src = true) :
    validateUtf8C (cStr (StringBase.insertM st charIdx src).buf) = true := by
  unfold StringBase.insertM
  by_cases hsrc : src = []
  · rw [if_pos hsrc]
    exact hv
  rw [if_neg hsrc]
  dsimp only
  by_cases hcond : (st.capacity : Int) - 1 ≤
      ((insertC st.buf st.capacity st.len charIdx src).2 : Int)
  · rw [if_pos hcond]
    dsimp only
    exact validate_of_SanChunks _ (sanitizeUtf8C_chunks _ st.capacity
      (insertC_length st.buf st.capacity st.len charIdx src hbuf hlen))
  · rw [if_neg hcond]
    dsimp only
    by_cases htr : st.capacity ≤ st.len + src.length
    · by_cases hroom : st.len + 1 < st.capacity
      · exfalso
        apply hcond
        have h2 : (insertC st.buf st.capacity st.len charIdx src).2 =
            st.capacity - 1 := by
          unfold insertC
          rw [if_neg hsrc]
          dsimp only
          simp only [if_pos htr, if_pos hroom]
          rw [if_neg (by omega)]
          dsimp only
          omega
        rw [h2]
        push_cast
        omega
      · have hr : insertC st.buf st.capacity st.len charIdx src =
            (st.buf, st.len) := by
          unfold insertC
          rw [if_neg hsrc]
          dsimp only
          simp only [if_pos htr, if_neg hroom, if_true]
        rw [hr]
        exact hv
    · have hfit : st.len + src.length + 1 ≤ st.capacity := by omega
      obtain ⟨hcontent, hlen2⟩ := insertC_content st.buf st.capacity st.len
        charIdx src hbuf hlen hsrc hsz hfit
      rw [hcontent]
      have hch : SanChunks (cStr st.buf) :=
        SanChunks_of_validate _ _ le_rfl (cStr_ne_zero _) hv
      obtain ⟨A, M, B, hsplit, hA, hM, hB, hfA, hfM⟩ :=
        fcs_decomp (cStr st.buf) hch charIdx charIdx le_rfl
      have hM0 : M = [] := List.eq_nil_of_length_eq_zero (by omega)
      have hTA : (cStr st.buf).take
          (findUtf8CharStart (cStr st.buf) charIdx) = A := by
        rw [hfA, hsplit, hM0]
        simp only [List.append_nil]
        exact List.take_left A B
      have hTB : (cStr st.buf).drop
          (findUtf8CharStart (cStr st.buf) charIdx) = B := by
        rw [hfA, hsplit, hM0]
        simp only [List.append_nil]
        exact List.drop_left A B
      rw [hTA, hTB]
      have hsch : SanChunks src :=
        SanChunks_of_validate src.length src le_rfl hsz hvs
      exact validate_of_SanChunks _
        (SanChunks_append _ _ (SanChunks_append _ _ hA hsch) hB)

/-- C3: UTF-8 safety of `insert`, `remove` and `sanitize` — starting from
a buffer whose content is valid UTF-8 (and, for insert, inserting valid
UTF-8 text), each operation leaves content that still validates, so no
incomplete multi-byte sequence is ever left at the tail; in particular,
inserting the 3-byte character U+20AC into "abc" at one byte short of the
needed capacity (capacity 6) inserts none of the character's bytes: the
truncated prefix is repaired to "abc??", which does not end in any proper
prefix of the character. -/
theorem utf8_safety_insert_remove_sanitize :
    (∀ (st : StringBaseSt) (charIdx : Nat) (src : List Nat),
      st.buf.length = st.capacity →
      (cStr st.buf).length = st.len →
      st.len < st.capacity →
      validateUtf8C (cStr st.buf) = true →
      (∀ b ∈ src, b ≠ 0) →
      validateUtf8C src = true →
      validateUtf8C (cStr (StringBase.insertM st charIdx src).buf) = true) ∧
    (∀ (buf : List Nat) (curLen charIdx charCount : Nat),
      (cStr buf).length = curLen → curLen < buf.length →
      validateUtf8C (cStr buf) = true →
      validateUtf8C (cStr (removeC buf curLen charIdx charCount).1) = true) ∧
    (∀ (buf : List Nat) (maxLen : Nat), buf.length = maxLen →
      validateUtf8C (cStr (sanitizeUtf8C buf maxLen).1) = true) ∧
    ((StringBase.insertM ⟨[97, 98, 99, 0, 0, 0], 6, 3⟩ 3
        [226, 130, 172]).buf = [97, 98, 99, 63, 63, 0] ∧
      (StringBase.insertM ⟨[97, 98, 99, 0, 0, 0], 6, 3⟩ 3
        [226, 130, 172]).len = 5 ∧
      ¬ List.IsSuffix [226]
        (cStr (StringBase.insertM ⟨[97, 98, 99, 0, 0, 0], 6, 3⟩ 3
          [226, 130, 172]).buf) ∧
      ¬ List.IsSuffix [226, 130]
        (cStr (StringBase.insertM ⟨[97, 98, 99, 0, 0, 0], 6, 3⟩ 3
          [226, 130, 172]).buf)) := by
  refine ⟨insertM_valid, removeC_valid, ?_, ?_⟩
  · intro buf maxLen h
    exact validate_of_SanChunks _ (sanitizeUtf8C_chunks buf maxLen h)
  · simp +decide [StringBase.insertM, insertC, sanitizeUtf8C, sanLoop,
      copyBytes, validSeqLenMB, findUtf8CharStart, fcsLoop, skipContLoop,
      cStr, listCopy]

theorem utf8_safety_insert_remove_sanitize_witness :
    validateUtf8C (cStr (StringBase.insertM ⟨[97, 0, 0, 0], 4, 1⟩ 0
        [98]).buf) = true ∧
    validateUtf8C (cStr (removeC [97, 98, 0, 0] 2 0 1).1) = true ∧
    validateUtf8C (cStr (sanitizeUtf8C [65, 195, 0, 0] 4).1) = true :=
  ⟨utf8_safety_insert_remove_sanitize.1 ⟨[97, 0, 0, 0], 4, 1⟩ 0 [98]
      (by decide) (by decide) (by decide)
      (by simp +decide [validateUtf8C, cStr]) (by decide)
      (by simp +decide [validateUtf8C]),
    utf8_safety_insert_remove_sanitize.2.1 [97, 98, 0, 0] 2 0 1
      (by decide) (by decide) (by simp +decide [validateUtf8C, cStr]),
    utf8_safety_insert_remove_sanitize.2.2.1 [65, 195, 0, 0] 4 (by decide)⟩
